import Mathlib

/-!
Verification development for the industry_vis backend core
(query-result cache, fingerprint/CacheKey builder, and the time-series
processing pipeline of `src-tauri/src/processing` and `src-tauri/src/cache.rs`).

Modelling conventions (shallow embedding of the Rust source):
  * `f64` values are modelled as exact rationals (`ℚ`); the source's
    floating-point arithmetic is idealised as exact field arithmetic.
  * The 3-sigma filters compare `(v - mean)^2 ≤ 9 * variance`, which over the
    reals is equivalent to the source's `mean - 3*std_dev ≤ v ≤ mean + 3*std_dev`
    with `std_dev = sqrt variance`; the equivalence is proved in
    `sq_le_nine_var_iff` so no square root is needed on `ℚ`.
  * `chrono` timestamp parsing/formatting (two accepted formats plus the
    local-time `single()` disambiguation) is abstracted as a `TimeCodec`
    record with `parse : String → Option Int` (`none` both for a parse
    failure and for a non-unique local-time interpretation) and
    `fmt : Int → String` for `%Y-%m-%dT%H:%M:%S%.3f` rendering.
  * `std::collections::HashMap` accumulation via `entry().or_default().push()`
    is modelled as an association list built by `groupByKey`: one entry per
    distinct key, each entry's member list in first-encounter order (exactly
    the order the `Vec` pushes produce).  The map's iteration order is
    unspecified in Rust, so every theorem below is stated in an
    iteration-order-insensitive way (membership, permutation, counts).
  * `Vec::sort_by(|a, b| a.date_time.cmp(&b.date_time))` is modelled by the
    stable `List.mergeSort` on the `date_time` string (Rust's `sort_by` is
    also stable; `String` comparison is lexicographic in both).
  * Functions whose Rust signature is `AppResult<T>` but whose every exit is
    `Ok` (all of `native.rs`) are modelled as pure functions; the orchestration
    `process_query_result` keeps the `Except` shape, with the Polars strategy
    abstracted as an arbitrary fallible function parameter.
-/

set_option maxRecDepth 1000

namespace IndustryVis

/-! ## Generic grouping (HashMap `entry().or_default().push()` model) -/

/-- One step of hash-map accumulation: append `x` to the group keyed `k`,
creating the group if absent.  Within a group, members end up in
first-encounter order (the new element is pushed at the member-list front
because `groupByKey` folds from the right). -/
def addToGroup {α κ : Type} [DecidableEq κ] (k : κ) (x : α) :
    List (κ × List α) → List (κ × List α)
  | [] => [(k, [x])]
  | p :: rest => if p.1 = k then (p.1, x :: p.2) :: rest else p :: addToGroup k x rest

/-- Group a list by a key function.  Each distinct key appears exactly once;
its member list is the subsequence of elements with that key, in input
order.  The order of the groups themselves is a modelling choice (Rust's
`HashMap` iteration order is unspecified); no theorem depends on it. -/
def groupByKey {α κ : Type} [DecidableEq κ] (f : α → κ) : List α → List (κ × List α)
  | [] => []
  | x :: l => addToGroup (f x) x (groupByKey f l)

/-- Look up the member list of key `k` (empty when absent). -/
def findGroup {α κ : Type} [DecidableEq κ] (k : κ) (g : List (κ × List α)) : List α :=
  ((g.find? fun p => decide (p.1 = k)).map Prod.snd).getD []

/-! ## Data model (`models/history.rs`, `models/processing.rs`) -/

/-- Mirror of `HistoryRecord { date_time, tag_name, tag_val, tag_quality }`,
with `tag_val : f64` modelled as `ℚ`. -/
structure HistoryRecord where
  date_time : String
  tag_name : String
  tag_val : ℚ
  tag_quality : String
deriving DecidableEq, Repr

/-- Mirror of `OutlierRemovalConfig { enabled, method }`. -/
structure OutlierRemovalConfig where
  enabled : Bool
  method : String
deriving DecidableEq, Repr

/-- Mirror of `ResampleConfig { enabled, interval: u32, method }`. -/
structure ResampleConfig where
  enabled : Bool
  interval : ℕ
  method : String
deriving DecidableEq, Repr

/-- Mirror of `SmoothingConfig { enabled, method, window: usize }`. -/
structure SmoothingConfig where
  enabled : Bool
  method : String
  window : ℕ
deriving DecidableEq, Repr

/-- Mirror of `DataProcessingConfig`. -/
structure DataProcessingConfig where
  outlier_removal : OutlierRemovalConfig
  resample : ResampleConfig
  smoothing : SmoothingConfig
deriving DecidableEq, Repr

/-- Mirror of `DataProcessingConfig::default()` (`serde` defaults:
all stages disabled, method strings and sizes as in `models/processing.rs`). -/
def DataProcessingConfig.default : DataProcessingConfig :=
  { outlier_removal := { enabled := false, method := "3sigma" }
    resample := { enabled := false, interval := 60, method := "mean" }
    smoothing := { enabled := false, method := "moving_avg", window := 5 } }

/-- Abstraction of the `chrono` timestamp handling used by the pipeline.
`parse` models the composite
"`NaiveDateTime::parse_from_str` with `%Y-%m-%dT%H:%M:%S%.3f`, else with
`%Y-%m-%dT%H:%M:%S`, then `Local.from_local_datetime(..).single()`,
yielding `timestamp_millis`"; it returns `none` both when neither format
parses and when the local-time interpretation is not unique.  `fmt` models
rendering a millisecond timestamp back through
`format("%Y-%m-%dT%H:%M:%S%.3f")`. -/
structure TimeCodec where
  parse : String → Option Int
  fmt : Int → String

/-- The final `result.sort_by(|a, b| a.date_time.cmp(&b.date_time))` of the
pipeline stages: a stable sort on the timestamp string. -/
def sortByDateTime (l : List HistoryRecord) : List HistoryRecord :=
  l.mergeSort fun a b => decide (a.date_time ≤ b.date_time)

/-! ## Native pipeline stages (`processing/native.rs`) -/

/-- Population mean `values.iter().sum::<f64>() / n` of `remove_outliers`. -/
def popMean (l : List ℚ) : ℚ := l.sum / l.length

/-- Population variance
`values.iter().map(|v| (v - mean).powi(2)).sum::<f64>() / n` of
`remove_outliers`. -/
def popVar (l : List ℚ) : ℚ :=
  (l.map fun v => (v - popMean l) * (v - popMean l)).sum / l.length

/-- Mirror of `remove_outliers` (3-sigma rule, single pass): fewer than 3
records pass through unchanged; otherwise keep records whose value lies in
`[mean - 3*std_dev, mean + 3*std_dev]`.  The source materialises
`std_dev = variance.sqrt()` and compares against `lower`/`upper`; since both
sides of each comparison are nonnegative-shifted, that is equivalent to the
square-free test `(v - mean)^2 ≤ 9 * variance` used here (see
`sq_le_nine_var_iff`), which keeps the embedding inside `ℚ`. -/
def remove_outliers (records : List HistoryRecord) : List HistoryRecord :=
  if records.length < 3 then records
  else
    let values := records.map (·.tag_val)
    let mean := popMean values
    let variance := popVar values
    records.filter fun r =>
      decide ((r.tag_val - mean) * (r.tag_val - mean) ≤ 9 * variance)

/-- The epoch-aligned window key `(timestamp_ms / interval_ms) * interval_ms`
(`i64` division truncates toward zero, hence `Int.tdiv`). -/
def windowKey (interval_ms ts : Int) : Int := ts.tdiv interval_ms * interval_ms

/-- Mirror of `resample_data` (time-bucket mean): parse each record's
timestamp (records that fail to parse are silently skipped), group by the
epoch-aligned window key, emit one record per window — value the arithmetic
mean, timestamp the formatted window start, tag name and quality from the
first record encountered in the window (`window_records[0]`) — and sort by
timestamp string. -/
def resample_data (tc : TimeCodec) (records : List HistoryRecord) (interval : ℕ) :
    List HistoryRecord :=
  if records = [] then records
  else
    let interval_ms : Int := (interval : Int) * 1000
    let keyed := records.filterMap fun r =>
      (tc.parse r.date_time).map fun ts => (windowKey interval_ms ts, r)
    let windows := groupByKey Prod.fst keyed
    let result := windows.filterMap fun p =>
      match p.2 with
      | [] => none
      | w :: ws =>
        some { date_time := tc.fmt p.1
               tag_name := w.2.tag_name
               tag_val := ((w :: ws).map fun q => q.2.tag_val).sum / ((w :: ws).length : ℚ)
               tag_quality := w.2.tag_quality }
    sortByDateTime result

/-- Specification-side view of a resampling window: the records of the
input whose parsed timestamp falls in the window with epoch-aligned key
`k`, in input order (the first element is the "first point encountered in
the window"). -/
def windowMembers (tc : TimeCodec) (interval : ℕ) (records : List HistoryRecord)
    (k : Int) : List HistoryRecord :=
  records.filter fun r =>
    match tc.parse r.date_time with
    | some ts => decide (windowKey ((interval : Int) * 1000) ts = k)
    | none => false

/-- Mirror of `smooth_data` (centered moving average): a no-op when
`records.len() < window || window < 2`; otherwise each value becomes the mean
of the values at indices `[i - window/2, min(i + window/2 + 1, len))`
(clamped, no padding); timestamps, tag names and qualities are untouched. -/
def smooth_data (records : List HistoryRecord) (window : ℕ) : List HistoryRecord :=
  if records.length < window ∨ window < 2 then records
  else
    let values := records.map (·.tag_val)
    let smoothed := (List.range values.length).map fun i =>
      let start := i - window / 2
      let stop := min (i + window / 2 + 1) values.length
      let window_vals := (values.drop start).take (stop - start)
      window_vals.sum / (window_vals.length : ℚ)
    records.zipWith (fun r v => { r with tag_val := v }) smoothed

/-- The per-tag body of `downsample`'s loop: a series at or below the cap is
kept whole, otherwise only the indices divisible by `step = count / cap`
survive (stride sampling over the series in input order). -/
def stride_sample (max_points : ℕ) (tag_records : List HistoryRecord) :
    List HistoryRecord :=
  if tag_records.length ≤ max_points then tag_records
  else
    let step := tag_records.length / max_points
    (tag_records.enum.filter fun q => decide (q.1 % step = 0)).map Prod.snd

/-- Mirror of `downsample`: group by tag name, stride-sample each tag group,
concatenate and sort by timestamp string. -/
def downsample (records : List HistoryRecord) (max_points_per_tag : ℕ) :
    List HistoryRecord :=
  if records = [] then records
  else
    let tag_groups := groupByKey (fun r => r.tag_name) records
    let result := tag_groups.flatMap fun p => stride_sample max_points_per_tag p.2
    sortByDateTime result

/-! ## Row-wise orchestration (`processing/mod.rs`) -/

/-- Mirror of `process_tag_data`: stages 1-3 for one tag's records, each stage
gated by its toggle exactly as in the source. -/
def process_tag_data (tc : TimeCodec) (records : List HistoryRecord)
    (config : DataProcessingConfig) : List HistoryRecord :=
  let r1 := if config.outlier_removal.enabled then remove_outliers records else records
  let r2 := if config.resample.enabled ∧ 0 < config.resample.interval
    then resample_data tc r1 config.resample.interval else r1
  if config.smoothing.enabled ∧ 1 < config.smoothing.window
    then smooth_data r2 config.smoothing.window else r2

/-- Mirror of `process_data` (the row-wise strategy): group by tag, run
stages 1-3 per tag, concatenate, sort by timestamp string.  The Rust
signature is `AppResult<_>` but every exit of the body is `Ok`, so the model
is pure. -/
def process_data (tc : TimeCodec) (records : List HistoryRecord)
    (config : DataProcessingConfig) : List HistoryRecord :=
  if records = [] then records
  else
    sortByDateTime ((groupByKey (fun r => r.tag_name) records).flatMap
      fun p => process_tag_data tc p.2 config)

/-! ## Columnar strategy (`processing/polars_impl.rs`)

A Polars `DataFrame` of the four columns `datetime` (ms, `Int64`),
`tag_name`, `tag_val`, `tag_quality` is modelled as a `List FrameRow` in row
order.  The ingested columns are never null; the only null the pipeline can
produce is the `std(ddof=1)` of a single-row group, which is folded into
`remove_outliers_by_group` below (a null comparison filters the row out). -/

/-- One row of the processing `DataFrame`. -/
structure FrameRow where
  datetime : Int
  tag_name : String
  tag_val : ℚ
  tag_quality : String
deriving DecidableEq, Repr

/-- Mirror of `records_to_dataframe`: timestamps that fail to parse become
epoch `0` (`parse_timestamp_ms(..).unwrap_or(0)`). -/
def records_to_dataframe (tc : TimeCodec) (records : List HistoryRecord) :
    List FrameRow :=
  records.map fun r =>
    { datetime := (tc.parse r.date_time).getD 0
      tag_name := r.tag_name
      tag_val := r.tag_val
      tag_quality := r.tag_quality }

/-- Mirror of `dataframe_to_records`: render each row's millisecond timestamp
back to a string. -/
def dataframe_to_records (tc : TimeCodec) (rows : List FrameRow) :
    List HistoryRecord :=
  rows.map fun w =>
    { date_time := tc.fmt w.datetime
      tag_name := w.tag_name
      tag_val := w.tag_val
      tag_quality := w.tag_quality }

/-- Sample variance with `ddof = 1` (Polars `col("tag_val").std(1)` squared):
sum of squared deviations over `n - 1`. -/
def sampleVar (l : List ℚ) : ℚ :=
  (l.map fun v => (v - popMean l) * (v - popMean l)).sum / ((l.length : ℚ) - 1)

/-- Mirror of `remove_outliers_by_group`: per `tag_name` window statistics
(`mean().over(..)`, `std(1).over(..)`) and the filter
`_mean - 3*_std ≤ tag_val ≤ _mean + 3*_std`, written square-free as in
`remove_outliers`.  Note the two deliberate divergences from the row-wise
strategy, both visible in the source: the standard deviation is the *sample*
one (`ddof = 1`), and there is no `len < 3` pass-through; for a single-row
group `std(1)` is null, the comparison is null, and the filter drops the
row — modelled by the `2 ≤ n` conjunct. -/
def remove_outliers_by_group (rows : List FrameRow) : List FrameRow :=
  rows.filter fun r =>
    let vals := (rows.filter fun q => decide (q.tag_name = r.tag_name)).map (·.tag_val)
    decide (2 ≤ vals.length) &&
      decide ((r.tag_val - popMean vals) * (r.tag_val - popMean vals) ≤ 9 * sampleVar vals)

/-- Polars `rolling_mean` with `center = true`, `min_periods = 1`: output `i`
averages the in-bounds part of `[i - w/2, i + w - 1 - w/2]`. -/
def rollingMeanCentered (w : ℕ) (vals : List ℚ) : List ℚ :=
  (List.range vals.length).map fun i =>
    let start := i - w / 2
    let stop := min (i + w - w / 2) vals.length
    let window_vals := (vals.drop start).take (stop - start)
    window_vals.sum / (window_vals.length : ℚ)

/-- Mirror of `smooth_by_group`: sort by `(tag_name, datetime)`, then apply
the centered rolling mean within each tag group. -/
def smooth_by_group (rows : List FrameRow) (window : ℕ) : List FrameRow :=
  let sorted := rows.mergeSort fun a b =>
    decide (a.tag_name < b.tag_name ∨ (a.tag_name = b.tag_name ∧ a.datetime ≤ b.datetime))
  (groupByKey (fun r => r.tag_name) sorted).flatMap fun p =>
    p.2.zipWith (fun r v => { r with tag_val := v })
      (rollingMeanCentered window (p.2.map (·.tag_val)))

/-- Mirror of `resample_data_polars`: truncate each `datetime` to its window
start, group by `(datetime, tag_name)`, aggregate mean value and first
quality, sort by `datetime`. -/
def resample_data_polars (rows : List FrameRow) (interval_seconds : ℕ) :
    List FrameRow :=
  let interval_ms : Int := (interval_seconds : Int) * 1000
  let keyed := rows.map fun r => { r with datetime := windowKey interval_ms r.datetime }
  let grouped := (groupByKey (fun r => (r.datetime, r.tag_name)) keyed).filterMap
    fun p =>
      match p.2 with
      | [] => none
      | w :: ws =>
        some { datetime := p.1.1
               tag_name := p.1.2
               tag_val := ((w :: ws).map (·.tag_val)).sum / ((w :: ws).length : ℚ)
               tag_quality := w.tag_quality }
  grouped.mergeSort fun a b => decide (a.datetime ≤ b.datetime)

/-- Mirror of `process_unified_pipeline`: outlier rejection, then smoothing,
then resampling — note the stage order differs from the row-wise strategy,
which resamples *before* smoothing. -/
def process_unified_pipeline (rows : List FrameRow) (config : DataProcessingConfig) :
    List FrameRow :=
  let r1 := if config.outlier_removal.enabled then remove_outliers_by_group rows else rows
  let r2 := if config.smoothing.enabled ∧ 1 < config.smoothing.window
    then smooth_by_group r1 config.smoothing.window else r1
  if config.resample.enabled ∧ 0 < config.resample.interval
    then resample_data_polars r2 config.resample.interval else r2

/-- Mirror of `process_data_polars` (the columnar strategy): convert to the
frame, run the unified pipeline, convert back, sort by timestamp string.
The Rust `AppResult` failures are internal Polars errors with no data-level
semantics; the data path itself is total, and `process_query_result` models
the strategy's fallibility through an abstract function parameter. -/
def process_data_polars (tc : TimeCodec) (records : List HistoryRecord)
    (config : DataProcessingConfig) : List HistoryRecord :=
  if records = [] then records
  else
    let df := records_to_dataframe tc records
    let result_df := process_unified_pipeline df config
    sortByDateTime (dataframe_to_records tc result_df)

/-- Mirror of `process_query_result`: with a configuration and more than
1000 records, try the columnar strategy (passed in as the fallible
`polarsFn`) and fall back to the row-wise strategy on error; with at most
1000 records (or no configuration) use the row-wise strategy (or nothing);
always downsample to 5000 points per tag last.  Every exit is `Ok`. -/
def process_query_result (tc : TimeCodec)
    (polarsFn : List HistoryRecord → DataProcessingConfig → Except String (List HistoryRecord))
    (records : List HistoryRecord) (config : Option DataProcessingConfig) :
    Except String (List HistoryRecord) :=
  let rs := match config with
    | some cfg =>
      if 1000 < records.length then
        match polarsFn records cfg with
        | Except.ok result => result
        | Except.error _ => process_data tc records cfg
      else process_data tc records cfg
    | none => records
  Except.ok (downsample rs 5000)

/-! ## Cache (`cache.rs`)

`CacheKey::new` hashes the processing configuration with
`std::collections::hash_map::DefaultHasher`, which is SipHash-1-3 with both
keys zero.  The hasher is modelled bit-exactly below over `ℕ` with explicit
`% 2^64` wrapping: the byte stream fed to it follows Rust's `Hash`
protocol on an x86-64 (little-endian) target — `bool` as one byte, `u32` as
4 LE bytes, `usize` as 8 LE bytes, `String` as its UTF-8 bytes followed by
`0xff` — in the exact field order of the source. -/

def M64 : ℕ := 2 ^ 64

/-- Wrapping 64-bit addition. -/
def add64 (a b : ℕ) : ℕ := (a + b) % M64

/-- 64-bit XOR (the `% M64` is redundant for in-range inputs and keeps every
intermediate trivially bounded). -/
def xor64 (a b : ℕ) : ℕ := (a ^^^ b) % M64

/-- 64-bit left rotation. -/
def rotl64 (x r : ℕ) : ℕ := ((x <<< r) ||| (x >>> (64 - r))) % M64

/-- The four 64-bit SipHash state words. -/
structure SipState where
  v0 : ℕ
  v1 : ℕ
  v2 : ℕ
  v3 : ℕ

/-- One SIPROUND, exactly as in `core/src/hash/sip.rs`. -/
def sipRound (s : SipState) : SipState :=
  let v0 := add64 s.v0 s.v1
  let v1 := rotl64 s.v1 13
  let v1 := xor64 v1 v0
  let v0 := rotl64 v0 32
  let v2 := add64 s.v2 s.v3
  let v3 := rotl64 s.v3 16
  let v3 := xor64 v3 v2
  let v0 := add64 v0 v3
  let v3 := rotl64 v3 21
  let v3 := xor64 v3 v0
  let v2 := add64 v2 v1
  let v1 := rotl64 v1 17
  let v1 := xor64 v1 v2
  let v2 := rotl64 v2 32
  ⟨v0, v1, v2, v3⟩

/-- Compress one message word (`c = 1` round for SipHash-1-3). -/
def sipProcessWord (s : SipState) (m : ℕ) : SipState :=
  let s1 : SipState := { s with v3 := xor64 s.v3 m }
  let s2 := sipRound s1
  { s2 with v0 := xor64 s2.v0 m }

/-- Little-endian word value of a byte list. -/
def toWordLE : List ℕ → ℕ
  | [] => 0
  | b :: bs => b + 256 * toWordLE bs

/-- Main SipHash-1-3 loop: full 8-byte words, then the final word carrying
the trailing bytes and the total length in the top byte, then `v2 ^= 0xff`
and `d = 3` finalization rounds. -/
def sipMain (s : SipState) (len : ℕ) : List ℕ → ℕ
  | b0 :: b1 :: b2 :: b3 :: b4 :: b5 :: b6 :: b7 :: rest =>
    sipMain (sipProcessWord s (toWordLE [b0, b1, b2, b3, b4, b5, b6, b7])) len rest
  | rest =>
    let b := toWordLE rest + len % 256 * 2 ^ 56
    let s1 := sipProcessWord s b
    let s2 := { s1 with v2 := xor64 s1.v2 0xff }
    let s3 := sipRound (sipRound (sipRound s2))
    xor64 (xor64 s3.v0 s3.v1) (xor64 s3.v2 s3.v3)

/-- `DefaultHasher::new()` is SipHash-1-3 with `k0 = k1 = 0`, so the initial
state is the bare SipHash constants. -/
def sipHash13 (bytes : List ℕ) : ℕ :=
  sipMain ⟨0x736f6d6570736575, 0x646f72616e646f6d, 0x6c7967656e657261, 0x7465646279746573⟩
    bytes.length bytes

/-- `bool::hash`: one byte, 0 or 1. -/
def u8Byte (b : Bool) : List ℕ := [if b then 1 else 0]

/-- `u32::hash`: four little-endian bytes. -/
def u32LE (n : ℕ) : List ℕ :=
  [n % 256, n / 256 % 256, n / 256 ^ 2 % 256, n / 256 ^ 3 % 256]

/-- `usize::hash` on a 64-bit target: eight little-endian bytes. -/
def u64LE (n : ℕ) : List ℕ :=
  [n % 256, n / 256 % 256, n / 256 ^ 2 % 256, n / 256 ^ 3 % 256,
   n / 256 ^ 4 % 256, n / 256 ^ 5 % 256, n / 256 ^ 6 % 256, n / 256 ^ 7 % 256]

/-- `str::hash`: the UTF-8 bytes followed by a `0xff` terminator.
`c.toNat % 256` equals the UTF-8 byte for ASCII characters; every string
hashed in this development is ASCII. -/
def strHashBytes (s : String) : List ℕ :=
  (s.data.map fun c => c.toNat % 256) ++ [0xff]

/-- The byte stream `CacheKey::new` feeds to the hasher, field by field in
source order: `outlier_removal.enabled`, `outlier_removal.method`,
`resample.enabled`, `resample.interval`, `resample.method`,
`smoothing.enabled`, `smoothing.method`, `smoothing.window`. -/
def configHashBytes (c : DataProcessingConfig) : List ℕ :=
  u8Byte c.outlier_removal.enabled ++ strHashBytes c.outlier_removal.method ++
  u8Byte c.resample.enabled ++ u32LE c.resample.interval ++ strHashBytes c.resample.method ++
  u8Byte c.smoothing.enabled ++ strHashBytes c.smoothing.method ++ u64LE c.smoothing.window

/-- The `processing_config_hash` value of `CacheKey::new` for a present
configuration (`hasher.finish()`). -/
def processingConfigHash (c : DataProcessingConfig) : ℕ :=
  sipHash13 (configHashBytes c)

/-- Mirror of `CacheKey { table, start_time, end_time, tags, processing_config_hash }`. -/
structure CacheKey where
  table : String
  start_time : String
  end_time : String
  tags : List String
  processing_config_hash : ℕ
deriving DecidableEq, Repr

/-- Mirror of `CacheKey::new`: tags default to empty and are sorted
(`sorted_tags.sort()`, a stable lexicographic sort); an absent processing
configuration hashes to 0 (`unwrap_or(0)`). -/
def CacheKey.new (table start_time end_time : String) (tags : Option (List String))
    (processing_config : Option DataProcessingConfig) : CacheKey :=
  { table := table
    start_time := start_time
    end_time := end_time
    tags := (tags.getD []).mergeSort fun a b => decide (a ≤ b)
    processing_config_hash := (processing_config.map processingConfigHash).getD 0 }

/-- Mirror of `CacheConfig { max_entries, ttl_seconds }`. -/
structure CacheConfig where
  max_entries : ℕ
  ttl_seconds : ℕ

/-- Mirror of `CacheEntry { data, created_at, ttl }`; `Instant` is modelled
as a second count, with the current time passed explicitly to every
operation that reads the clock. -/
structure CacheEntry where
  data : List HistoryRecord
  created_at : ℕ
  ttl : ℕ
deriving DecidableEq, Repr

/-- Mirror of `CacheEntry::is_expired`: `created_at.elapsed() > ttl`
(strict: an entry exactly `ttl` old is not yet expired). -/
def CacheEntry.is_expired (e : CacheEntry) (now : ℕ) : Bool :=
  decide (e.ttl < now - e.created_at)

/-- Mirror of `QueryCache`: the `LruCache` is a recency-ordered association
list (most recently used first), together with the configuration and the
hit/miss counters. -/
structure QueryCache where
  entries : List (CacheKey × CacheEntry)
  max_entries : ℕ
  ttl_seconds : ℕ
  hits : ℕ
  misses : ℕ
deriving DecidableEq, Repr

/-- Mirror of `QueryCache::new`: `LruCache::new(NonZeroUsize::new(max_entries)
.unwrap_or(50))` — a zero capacity silently becomes 50, so the capacity of
every constructed cache is positive. -/
def QueryCache.new (config : CacheConfig) : QueryCache :=
  { entries := []
    max_entries := if config.max_entries = 0 then 50 else config.max_entries
    ttl_seconds := config.ttl_seconds
    hits := 0
    misses := 0 }

/-- Mirror of `QueryCache::with_defaults()` (`max_entries = 50`,
`ttl_seconds = 300`). -/
def QueryCache.with_defaults : QueryCache :=
  QueryCache.new { max_entries := 50, ttl_seconds := 300 }

/-- Look up an entry without touching recency (proof-side helper: the first
entry with the given key, as `LruCache` stores at most one per key). -/
def QueryCache.find (c : QueryCache) (key : CacheKey) : Option CacheEntry :=
  (c.entries.find? fun p => decide (p.1 = key)).map Prod.snd

/-- Mirror of `QueryCache::get`: on a present, unexpired key return a clone
of the data, promote the entry to most-recently-used, and count a hit; on a
present but expired key pop the entry and count a miss; on an absent key
count a miss. -/
def QueryCache.get (c : QueryCache) (key : CacheKey) (now : ℕ) :
    Option (List HistoryRecord) × QueryCache :=
  match c.entries.find? fun p => decide (p.1 = key) with
  | some p =>
    if p.2.is_expired now then
      (none, { c with entries := c.entries.filter fun q => !decide (q.1 = key)
                      misses := c.misses + 1 })
    else
      (some p.2.data,
       { c with entries := p :: c.entries.filter fun q => !decide (q.1 = key)
                hits := c.hits + 1 })
  | none => (none, { c with misses := c.misses + 1 })

/-- Mirror of `QueryCache::put`: insert (or replace) at most-recently-used
position with `ttl = Duration::from_secs(ttl_seconds)`; `LruCache::put`
evicts the least-recently-used entry when the capacity would be exceeded. -/
def QueryCache.put (c : QueryCache) (key : CacheKey) (data : List HistoryRecord)
    (now : ℕ) : QueryCache :=
  let entry : CacheEntry := { data := data, created_at := now, ttl := c.ttl_seconds }
  { c with entries :=
      ((key, entry) :: c.entries.filter fun q => !decide (q.1 = key)).take c.max_entries }

/-- Mirror of `QueryCache::clear`: drop all entries and reset both counters. -/
def QueryCache.clear (c : QueryCache) : QueryCache :=
  { c with entries := [], hits := 0, misses := 0 }

/-- Mirror of `QueryCache::evict_expired`: remove every expired entry,
independent of recency order. -/
def QueryCache.evict_expired (c : QueryCache) (now : ℕ) : QueryCache :=
  { c with entries := c.entries.filter fun p => !p.2.is_expired now }

/-- Mirror of `CacheStats`. -/
structure CacheStats where
  hits : ℕ
  misses : ℕ
  hit_rate : ℚ
  entries : ℕ
  max_entries : ℕ
  estimated_memory_bytes : ℕ
deriving DecidableEq, Repr

/-- Mirror of `QueryCache::get_stats`. -/
def QueryCache.get_stats (c : QueryCache) : CacheStats :=
  { hits := c.hits
    misses := c.misses
    hit_rate := if 0 < c.hits + c.misses
      then (c.hits : ℚ) / ((c.hits : ℚ) + (c.misses : ℚ)) * 100 else 0
    entries := c.entries.length
    max_entries := c.max_entries
    estimated_memory_bytes := (c.entries.map fun p => p.2.data.length * 100).sum }

/-! ## Concrete instances for witnesses and counterexamples

A fully concrete `TimeCodec` is needed to run the pipeline on explicit
inputs.  The decimal codec below renders a nonnegative millisecond
timestamp as its plain decimal digits; it is injective on nonnegative
timestamps and round-trips (`parse (fmt n) = some n`), which is all the
examples rely on (the actual ISO formatter of the source has the same two
properties on the relevant range). -/

/-- Decimal digits of a natural number (fuel-based, 20 digits suffice for
every value used here). -/
def natDigits : ℕ → ℕ → List Char
  | 0, _ => []
  | fuel + 1, n =>
    if n < 10 then [Char.ofNat (48 + n)]
    else natDigits fuel (n / 10) ++ [Char.ofNat (48 + n % 10)]

/-- Render a (nonnegative) timestamp as decimal digits. -/
def decFmt (n : Int) : String := String.mk (natDigits 20 n.toNat)

/-- Accumulate decimal digits; `none` on any non-digit character. -/
def parseDecDigits : List Char → ℕ → Option ℕ
  | [], acc => some acc
  | c :: cs, acc =>
    if 48 ≤ c.toNat ∧ c.toNat ≤ 57 then parseDecDigits cs (acc * 10 + (c.toNat - 48))
    else none

/-- Parse a nonempty all-digit string as a nonnegative timestamp. -/
def decParse (s : String) : Option Int :=
  match s.data with
  | [] => none
  | l => (parseDecDigits l 0).map Int.ofNat

/-- The concrete codec for the examples. -/
def decCodec : TimeCodec := ⟨decParse, decFmt⟩

/-- Ten inlier records (values 10..19) for the 3-sigma example of the spec. -/
def outlierBase : List HistoryRecord :=
  [⟨"2024-01-01T00:00:00.000", "Tag1", 10, "Good"⟩,
   ⟨"2024-01-01T00:01:00.000", "Tag1", 11, "Good"⟩,
   ⟨"2024-01-01T00:02:00.000", "Tag1", 12, "Good"⟩,
   ⟨"2024-01-01T00:03:00.000", "Tag1", 13, "Good"⟩,
   ⟨"2024-01-01T00:04:00.000", "Tag1", 14, "Good"⟩,
   ⟨"2024-01-01T00:05:00.000", "Tag1", 15, "Good"⟩,
   ⟨"2024-01-01T00:06:00.000", "Tag1", 16, "Good"⟩,
   ⟨"2024-01-01T00:07:00.000", "Tag1", 17, "Good"⟩,
   ⟨"2024-01-01T00:08:00.000", "Tag1", 18, "Good"⟩,
   ⟨"2024-01-01T00:09:00.000", "Tag1", 19, "Good"⟩]

/-- The spec's outlier example: ten values in `[10, 19]` plus one at 1000. -/
def outlierExample : List HistoryRecord :=
  outlierBase ++ [⟨"2024-01-01T00:10:00.000", "Tag1", 1000, "Good"⟩]

/-- Ten one-per-minute single-tag records (millisecond timestamps 0, 60000,
..., 540000 under `decCodec`) for the resampling example of the spec. -/
def resampleExample : List HistoryRecord :=
  [⟨"0", "T", 0, "Good"⟩,
   ⟨"60000", "T", 1, "Good"⟩,
   ⟨"120000", "T", 2, "Good"⟩,
   ⟨"180000", "T", 3, "Good"⟩,
   ⟨"240000", "T", 4, "Good"⟩,
   ⟨"300000", "T", 5, "Good"⟩,
   ⟨"360000", "T", 6, "Good"⟩,
   ⟨"420000", "T", 7, "Good"⟩,
   ⟨"480000", "T", 8, "Good"⟩,
   ⟨"540000", "T", 9, "Good"⟩]

/-- A single record used to build large replicated series. -/
def plainRecord : HistoryRecord := ⟨"2024-01-01T00:00:00.000", "Tag1", 0, "Good"⟩

/-- A processing configuration with only 3-sigma outlier removal enabled. -/
def cfgOutlierOnly : DataProcessingConfig :=
  { outlier_removal := { enabled := true, method := "3sigma" }
    resample := { enabled := false, interval := 60, method := "mean" }
    smoothing := { enabled := false, method := "moving_avg", window := 5 } }

/-- Eleven single-tag records with parseable six-digit timestamps and values
10..19 plus 100: the value 100 lies just outside 3 population sigmas but
just inside 3 sample sigmas, separating the two execution strategies. -/
def strategyGapExample : List HistoryRecord :=
  [⟨"100000", "A", 10, "Good"⟩,
   ⟨"101000", "A", 11, "Good"⟩,
   ⟨"102000", "A", 12, "Good"⟩,
   ⟨"103000", "A", 13, "Good"⟩,
   ⟨"104000", "A", 14, "Good"⟩,
   ⟨"105000", "A", 15, "Good"⟩,
   ⟨"106000", "A", 16, "Good"⟩,
   ⟨"107000", "A", 17, "Good"⟩,
   ⟨"108000", "A", 18, "Good"⟩,
   ⟨"109000", "A", 19, "Good"⟩,
   ⟨"110000", "A", 100, "Good"⟩]

/-- Nine processing configurations: the default and, for each of the eight
sub-fields of `DataProcessingConfig`, one variant differing from the default
in exactly that sub-field. -/
def defaultConfigVariants : List DataProcessingConfig :=
  [DataProcessingConfig.default,
   { DataProcessingConfig.default with
      outlier_removal := { enabled := true, method := "3sigma" } },
   { DataProcessingConfig.default with
      outlier_removal := { enabled := false, method := "iqr" } },
   { DataProcessingConfig.default with
      resample := { enabled := true, interval := 60, method := "mean" } },
   { DataProcessingConfig.default with
      resample := { enabled := false, interval := 120, method := "mean" } },
   { DataProcessingConfig.default with
      resample := { enabled := false, interval := 60, method := "sum" } },
   { DataProcessingConfig.default with
      smoothing := { enabled := true, method := "moving_avg", window := 5 } },
   { DataProcessingConfig.default with
      smoothing := { enabled := false, method := "ewma", window := 5 } },
   { DataProcessingConfig.default with
      smoothing := { enabled := false, method := "moving_avg", window := 7 } }]

/-- An infinite family of configurations differing from the default only in
the smoothing method string (distinct for distinct `n`), used for the
pigeonhole collision argument: the signature is a 64-bit hash, so two
distinct members of the family must share a signature. -/
def cfgVariant (n : ℕ) : DataProcessingConfig :=
  { DataProcessingConfig.default with
    smoothing := { enabled := false, method := String.mk (List.replicate n 'a'),
                   window := 5 } }

/-- A processing configuration with only resampling enabled (120-second
mean), the configuration class on which the two execution strategies do
agree. -/
def cfgResampleOnly : DataProcessingConfig :=
  { outlier_removal := { enabled := false, method := "3sigma" }
    resample := { enabled := true, interval := 120, method := "mean" }
    smoothing := { enabled := false, method := "moving_avg", window := 5 } }

/-- A small two-tag input with parseable, round-tripping timestamps. -/
def multiTagExample : List HistoryRecord :=
  [⟨"0", "A", 1, "Good"⟩,
   ⟨"60000", "A", 3, "Bad"⟩,
   ⟨"0", "B", 5, "Good"⟩,
   ⟨"130000", "B", 7, "Good"⟩]

/-! ## Grouping lemmas -/

theorem findGroup_addToGroup_same {α κ : Type} [DecidableEq κ]
    (k : κ) (x : α) (g : List (κ × List α)) :
    findGroup k (addToGroup k x g) = x :: findGroup k g := by
  induction g with
  | nil => simp [findGroup, addToGroup, List.find?]
  | cons p rest ih =>
    by_cases h : p.1 = k
    · simp [findGroup, addToGroup, h, List.find?]
    · simp only [addToGroup, if_neg h]
      simpa [findGroup, List.find?_cons, h] using ih

theorem findGroup_addToGroup_ne {α κ : Type} [DecidableEq κ]
    {k k' : κ} (x : α) (g : List (κ × List α)) (hne : k' ≠ k) :
    findGroup k' (addToGroup k x g) = findGroup k' g := by
  induction g with
  | nil => simp [findGroup, addToGroup, List.find?, Ne.symm hne]
  | cons p rest ih =>
    by_cases h : p.1 = k
    · subst h
      simp [findGroup, addToGroup, List.find?_cons, Ne.symm hne, hne]
    · by_cases h' : p.1 = k'
      · simp [findGroup, addToGroup, if_neg h, List.find?_cons, h', hne]
      · simp only [addToGroup, if_neg h]
        simpa [findGroup, List.find?_cons, h'] using ih

/-- The group of key `k` is the filter of the input at key `k`, in order. -/
theorem findGroup_groupByKey {α κ : Type} [DecidableEq κ] (f : α → κ) (l : List α) (k : κ) :
    findGroup k (groupByKey f l) = l.filter fun x => decide (f x = k) := by
  induction l with
  | nil => simp [groupByKey, findGroup, List.find?]
  | cons x l ih =>
    by_cases h : f x = k
    · subst h
      rw [groupByKey, findGroup_addToGroup_same, ih]
      simp
    · rw [groupByKey, findGroup_addToGroup_ne x _ (Ne.symm h), ih]
      simp [h]

theorem keys_addToGroup {α κ : Type} [DecidableEq κ] (k : κ) (x : α) (g : List (κ × List α)) :
    (addToGroup k x g).map Prod.fst =
      if k ∈ g.map Prod.fst then g.map Prod.fst else g.map Prod.fst ++ [k] := by
  induction g with
  | nil => simp [addToGroup]
  | cons p rest ih =>
    by_cases h : p.1 = k
    · simp [addToGroup, h]
    · simp only [addToGroup, if_neg h, List.map_cons, ih]
      by_cases hk : k ∈ rest.map Prod.fst
      · simp [hk, Ne.symm h]
      · simp [hk, Ne.symm h]

theorem keys_nodup {α κ : Type} [DecidableEq κ] (f : α → κ) (l : List α) :
    ((groupByKey f l).map Prod.fst).Nodup := by
  induction l with
  | nil => simp [groupByKey]
  | cons x l ih =>
    rw [groupByKey, keys_addToGroup]
    by_cases h : f x ∈ (groupByKey f l).map Prod.fst
    · simpa [h] using ih
    · simp only [h, if_false]
      exact List.Nodup.append ih (List.nodup_singleton _) (by simpa using h)

theorem mem_keys_groupByKey {α κ : Type} [DecidableEq κ] (f : α → κ) (l : List α) (k : κ) :
    k ∈ (groupByKey f l).map Prod.fst ↔ ∃ x ∈ l, f x = k := by
  induction l with
  | nil => simp [groupByKey]
  | cons x l ih =>
    rw [groupByKey, keys_addToGroup]
    by_cases h : f x ∈ (groupByKey f l).map Prod.fst
    · simp only [h, if_true, ih]
      constructor
      · rintro ⟨y, hy, rfl⟩
        exact ⟨y, by simp [hy], rfl⟩
      · rintro ⟨y, hy, rfl⟩
        rcases List.mem_cons.mp hy with rfl | hy'
        · exact ih.mp h
        · exact ⟨y, hy', rfl⟩
    · simp only [h, if_false, List.mem_append, ih, List.mem_singleton]
      constructor
      · rintro (⟨y, hy, rfl⟩ | rfl)
        · exact ⟨y, by simp [hy], rfl⟩
        · exact ⟨x, by simp, rfl⟩
      · rintro ⟨y, hy, rfl⟩
        rcases List.mem_cons.mp hy with rfl | hy'
        · exact Or.inr rfl
        · exact Or.inl ⟨y, hy', rfl⟩

/-- In an association list with nodup keys, `find?` at a member's key returns
exactly that member. -/
theorem find?_eq_of_mem_nodupKeys {α κ : Type} [DecidableEq κ] :
    ∀ {g : List (κ × List α)}, (g.map Prod.fst).Nodup →
      ∀ {p : κ × List α}, p ∈ g → g.find? (fun q => decide (q.1 = p.1)) = some p := by
  intro g
  induction g with
  | nil => intro _ p hp; simp at hp
  | cons q rest ih =>
    intro hnd p hp
    rcases List.mem_cons.mp hp with rfl | hmem
    · simp [List.find?_cons]
    · have hq : q.1 ≠ p.1 := by
        intro hEq
        have hmemk : p.1 ∈ rest.map Prod.fst := List.mem_map_of_mem Prod.fst hmem
        rw [← hEq] at hmemk
        exact (List.nodup_cons.mp (by simpa using hnd)).1 hmemk
      rw [List.find?_cons_of_neg _ (by simpa using hq)]
      exact ih (List.Nodup.of_cons (by simpa using hnd)) hmem

/-- Every listed group is the filter of the input at its key: a member pair of
the association list is determined by its key. -/
theorem mem_groupByKey_eq {α κ : Type} [DecidableEq κ] {f : α → κ} {l : List α}
    {p : κ × List α} (hp : p ∈ groupByKey f l) :
    p.2 = l.filter fun x => decide (f x = p.1) := by
  rw [← findGroup_groupByKey]
  have hfind := find?_eq_of_mem_nodupKeys (keys_nodup f l) hp
  simp [findGroup, hfind]

theorem mem_groupByKey_ne_nil {α κ : Type} [DecidableEq κ] {f : α → κ} {l : List α}
    {p : κ × List α} (hp : p ∈ groupByKey f l) : p.2 ≠ [] := by
  have hkey : p.1 ∈ (groupByKey f l).map Prod.fst := List.mem_map_of_mem Prod.fst hp
  rcases (mem_keys_groupByKey f l p.1).mp hkey with ⟨x, hx, hfx⟩
  rw [mem_groupByKey_eq hp]
  intro hnil
  have : x ∈ l.filter fun y => decide (f y = p.1) :=
    List.mem_filter.mpr ⟨hx, by simp [hfx]⟩
  simp [hnil] at this

theorem flatMap_addToGroup_perm {α κ : Type} [DecidableEq κ] (k : κ) (x : α)
    (g : List (κ × List α)) :
    ((addToGroup k x g).flatMap Prod.snd).Perm (x :: g.flatMap Prod.snd) := by
  induction g with
  | nil => simp [addToGroup]
  | cons p rest ih =>
    by_cases h : p.1 = k
    · simp [addToGroup, h, List.flatMap_cons]
    · simp only [addToGroup, if_neg h, List.flatMap_cons]
      exact (ih.append_left p.2).trans List.perm_middle

/-- Concatenating all the groups recovers the input, up to order. -/
theorem flatMap_groupByKey_perm {α κ : Type} [DecidableEq κ] (f : α → κ) (l : List α) :
    ((groupByKey f l).flatMap Prod.snd).Perm l := by
  induction l with
  | nil => simp [groupByKey]
  | cons x l ih =>
    rw [groupByKey]
    exact (flatMap_addToGroup_perm (f x) x (groupByKey f l)).trans (ih.cons x)

/-- `groupByKey` of a replicated element is a single group. -/
theorem groupByKey_replicate {α κ : Type} [DecidableEq κ] (f : α → κ) (x : α) (n : ℕ)
    (hn : 0 < n) : groupByKey f (List.replicate n x) = [(f x, List.replicate n x)] := by
  induction n with
  | zero => omega
  | succ m ih =>
    rcases Nat.eq_zero_or_pos m with rfl | hm
    · simp [groupByKey, addToGroup, List.replicate]
    · rw [List.replicate_succ, groupByKey, ih hm]
      simp [addToGroup, List.replicate_succ]

/-! ## Arithmetic helper lemmas -/

/-- The square-free 3-sigma test used by the embeddings is, over the reals,
exactly the source's interval test against `mean ± 3 * sqrt variance`. -/
theorem sq_le_nine_var_iff (v mean var : ℝ) (hvar : 0 ≤ var) :
    (v - mean) * (v - mean) ≤ 9 * var ↔
      mean - 3 * Real.sqrt var ≤ v ∧ v ≤ mean + 3 * Real.sqrt var := by
  have hs : 0 ≤ Real.sqrt var := Real.sqrt_nonneg var
  have hs2 : Real.sqrt var ^ 2 = var := Real.sq_sqrt hvar
  constructor
  · intro h
    constructor
    · nlinarith [sq_nonneg (v - mean + 3 * Real.sqrt var)]
    · nlinarith [sq_nonneg (v - mean - 3 * Real.sqrt var)]
  · rintro ⟨h1, h2⟩
    nlinarith [mul_nonneg (by linarith : (0:ℝ) ≤ 3 * Real.sqrt var - (v - mean))
      (by linarith : (0:ℝ) ≤ 3 * Real.sqrt var + (v - mean))]

theorem popVar_nonneg (l : List ℚ) : 0 ≤ popVar l := by
  unfold popVar
  apply div_nonneg
  · apply List.sum_nonneg
    intro x hx
    rcases List.mem_map.mp hx with ⟨v, _, rfl⟩
    exact mul_self_nonneg _
  · exact_mod_cast Nat.zero_le l.length

theorem filterMap_eq_filterMap_filter {α β : Type} (g : α → Option β) (l : List α) :
    l.filterMap g = (l.filter fun x => (g x).isSome).filterMap g := by
  induction l with
  | nil => rfl
  | cons x l ih =>
    by_cases h : (g x).isSome
    · rcases Option.isSome_iff_exists.mp h with ⟨b, hb⟩
      simp [List.filterMap_cons, List.filter_cons, h, hb, ih]
    · have hnone : g x = none := Option.not_isSome_iff_eq_none.mp h
      simp [List.filterMap_cons, List.filter_cons, h, hnone, ih]

/-! ## C4: 3-sigma outlier rejection -/

/-- C4.  Outlier rejection: with fewer than 3 points the input passes
through unchanged; with at least 3 points exactly the records whose value
lies in `[μ - 3σ, μ + 3σ]` survive, where `μ` is the population mean and
`σ = sqrt` of the population variance of the full input (computed once, not
re-iterated — the filter below is against the statistics of `records`
itself); and on the spec's example of ten values in `[10, 19]` plus one at
1000, exactly the 1000-valued record is removed. -/
theorem remove_outliers_spec :
    (∀ records : List HistoryRecord, records.length < 3 →
        remove_outliers records = records) ∧
    (∀ records : List HistoryRecord, 3 ≤ records.length → ∀ r : HistoryRecord,
        (r ∈ remove_outliers records ↔
          r ∈ records ∧
            ((popMean (records.map (·.tag_val)) : ℝ) -
                3 * Real.sqrt ((popVar (records.map (·.tag_val)) : ℚ) : ℝ) ≤ (r.tag_val : ℝ) ∧
              (r.tag_val : ℝ) ≤ (popMean (records.map (·.tag_val)) : ℝ) +
                3 * Real.sqrt ((popVar (records.map (·.tag_val)) : ℚ) : ℝ)))) ∧
    remove_outliers outlierExample = outlierBase := by
  refine ⟨?_, ?_, ?_⟩
  · intro records h
    simp [remove_outliers, h]
  · intro records h r
    rw [remove_outliers, if_neg (by omega)]
    rw [List.mem_filter]
    simp only [decide_eq_true_eq]
    constructor
    · rintro ⟨hr, hle⟩
      refine ⟨hr, ?_⟩
      rw [← sq_le_nine_var_iff _ _ _ (by exact_mod_cast popVar_nonneg _)]
      exact_mod_cast hle
    · rintro ⟨hr, hcond⟩
      refine ⟨hr, ?_⟩
      have := (sq_le_nine_var_iff ((r.tag_val : ℝ)) _ _
        (by exact_mod_cast popVar_nonneg (records.map (·.tag_val)))).mpr hcond
      exact_mod_cast this
  · with_unfolding_all decide

/-- Witness for C4: the pass-through branch applied at a concrete 2-record
input, and the characterisation applied at the concrete 11-record example
against its outlier record. -/
theorem remove_outliers_spec_witness :
    (remove_outliers (outlierBase.take 2) = outlierBase.take 2) ∧
    (⟨"2024-01-01T00:10:00.000", "Tag1", 1000, "Good"⟩ ∈ remove_outliers outlierExample ↔
      (⟨"2024-01-01T00:10:00.000", "Tag1", 1000, "Good"⟩ : HistoryRecord) ∈ outlierExample ∧
        ((popMean (outlierExample.map (·.tag_val)) : ℝ) -
            3 * Real.sqrt ((popVar (outlierExample.map (·.tag_val)) : ℚ) : ℝ) ≤ ((1000 : ℚ) : ℝ) ∧
          ((1000 : ℚ) : ℝ) ≤ (popMean (outlierExample.map (·.tag_val)) : ℝ) +
            3 * Real.sqrt ((popVar (outlierExample.map (·.tag_val)) : ℚ) : ℝ))) :=
  ⟨remove_outliers_spec.1 (outlierBase.take 2) (by with_unfolding_all decide),
   remove_outliers_spec.2.1 outlierExample (by with_unfolding_all decide) _⟩

/-! ## C3: cache-key tag-order invariance -/

/-- C3.  `CacheKey::new` is invariant under permutations of the tag list
(the tags are sorted before being stored), and a `None` tag list builds the
same key as `Some` of the empty list; equal keys hash equal (the derived
`Hash` is a function of the fields). -/
theorem cacheKey_new_tag_order_invariant :
    (∀ (table s e : String) (cfg : Option DataProcessingConfig) (t1 t2 : List String),
        t1.Perm t2 →
        CacheKey.new table s e (some t1) cfg = CacheKey.new table s e (some t2) cfg) ∧
    (∀ (table s e : String) (cfg : Option DataProcessingConfig),
        CacheKey.new table s e none cfg = CacheKey.new table s e (some []) cfg) := by
  constructor
  · intro table s e cfg t1 t2 hperm
    have hp : (t1.mergeSort fun a b => decide (a ≤ b)).Perm
        (t2.mergeSort fun a b => decide (a ≤ b)) :=
      ((t1.mergeSort_perm _).trans hperm).trans (t2.mergeSort_perm _).symm
    have heq : (t1.mergeSort fun a b => decide (a ≤ b)) =
        (t2.mergeSort fun a b => decide (a ≤ b)) :=
      List.eq_of_perm_of_sorted hp (List.sorted_mergeSort' t1) (List.sorted_mergeSort' t2)
    unfold CacheKey.new
    simp only [Option.getD_some]
    rw [heq]
  · intro table s e cfg
    rfl

/-- Witness for C3: the two orderings of a concrete two-tag list produce
equal keys. -/
theorem cacheKey_new_tag_order_invariant_witness :
    CacheKey.new "History" "2024-01-01" "2024-01-02" (some ["tag2", "tag1"]) none =
      CacheKey.new "History" "2024-01-01" "2024-01-02" (some ["tag1", "tag2"]) none :=
  cacheKey_new_tag_order_invariant.1 "History" "2024-01-01" "2024-01-02" none
    ["tag2", "tag1"] ["tag1", "tag2"] (by with_unfolding_all decide)

/-! ## C10: unparseable timestamps are silently dropped by resampling -/

/-- C10.  `resample_data` silently ignores every record whose timestamp does
not parse (in either accepted format, or with a non-unique local-time
interpretation — both are `parse = none` under the codec abstraction): its
output is identical to the output on the parseable sub-list, for every
codec, input and interval; no error is reported (the function is total and
the source returns `Ok` on every path). -/
theorem resample_data_ignores_unparseable (tc : TimeCodec)
    (records : List HistoryRecord) (interval : ℕ) :
    resample_data tc records interval =
      resample_data tc (records.filter fun r => (tc.parse r.date_time).isSome) interval := by
  by_cases hnil : records = []
  · subst hnil; rfl
  · have hkeyed : (records.filterMap fun r =>
        (tc.parse r.date_time).map fun ts => (windowKey ((interval : Int) * 1000) ts, r)) =
        ((records.filter fun r => (tc.parse r.date_time).isSome).filterMap fun r =>
          (tc.parse r.date_time).map fun ts => (windowKey ((interval : Int) * 1000) ts, r)) := by
      rw [filterMap_eq_filterMap_filter]
      congr 1
      apply List.filter_congr
      intro r _
      simp [Option.isSome_map]
    by_cases hfil : (records.filter fun r => (tc.parse r.date_time).isSome) = []
    · rw [resample_data, if_neg hnil, resample_data, if_pos hfil, hfil]
      simp [hkeyed, hfil, groupByKey, sortByDateTime]
    · rw [resample_data, if_neg hnil, resample_data, if_neg hfil]
      simp only [hkeyed]

/-! ## C9: the columnar strategy's failure never fails the request -/

/-- C9.  `process_query_result` always returns `Ok`; and whenever the
columnar strategy is attempted (more than 1000 records, a configuration
present) and fails, the returned payload is exactly the row-wise result
(downsampled), i.e. the optimisation path's error is swallowed by the
fallback. -/
theorem process_query_result_fallback :
    (∀ (tc : TimeCodec) polarsFn (records : List HistoryRecord)
        (config : Option DataProcessingConfig),
        ∃ out, process_query_result tc polarsFn records config = Except.ok out) ∧
    (∀ (tc : TimeCodec) polarsFn (records : List HistoryRecord)
        (cfg : DataProcessingConfig) (err : String),
        1000 < records.length →
        polarsFn records cfg = Except.error err →
        process_query_result tc polarsFn records (some cfg) =
          Except.ok (downsample (process_data tc records cfg) 5000)) := by
  constructor
  · intro tc polarsFn records config
    exact ⟨_, rfl⟩
  · intro tc polarsFn records cfg err hlen herr
    simp [process_query_result, hlen, herr]

/-- Witness for C9: a concrete 1001-record input with an always-failing
columnar strategy falls back to the row-wise result. -/
theorem process_query_result_fallback_witness :
    process_query_result decCodec (fun _ _ => Except.error "boom")
        (List.replicate 1001 plainRecord) (some DataProcessingConfig.default) =
      Except.ok (downsample
        (process_data decCodec (List.replicate 1001 plainRecord)
          DataProcessingConfig.default) 5000) :=
  process_query_result_fallback.2 decCodec (fun _ _ => Except.error "boom")
    (List.replicate 1001 plainRecord) DataProcessingConfig.default "boom"
    (by rw [List.length_replicate]; omega) rfl

/-! ## C6 and C7: cache behaviour -/

/-- C6.  TTL semantics: after `put` at time `t0`, `get` at any time with
`now - t0 ≤ ttl` (in particular any time before the ttl has elapsed)
returns the payload; strictly after the ttl has elapsed `get` returns
`none`, removes the entry, and counts a miss; and `evict_expired` keeps
exactly the unexpired entries, so an expired entry is absent afterwards
whether it was discovered via `get` or via `evict_expired`. -/
theorem cache_ttl_spec (c : QueryCache) (k : CacheKey) (v : List HistoryRecord)
    (t0 now : ℕ) (hcap : 0 < c.max_entries) :
    (now - t0 ≤ c.ttl_seconds → ((c.put k v t0).get k now).1 = some v) ∧
    (c.ttl_seconds < now - t0 →
        ((c.put k v t0).get k now).1 = none ∧
        (((c.put k v t0).get k now).2).find k = none ∧
        (((c.put k v t0).get k now).2).misses = (c.put k v t0).misses + 1) ∧
    (∀ (c' : QueryCache) (now' : ℕ) (p : CacheKey × CacheEntry),
        p ∈ (c'.evict_expired now').entries ↔
          p ∈ c'.entries ∧ p.2.is_expired now' = false) := by
  obtain ⟨m, hm⟩ : ∃ m, c.max_entries = m + 1 :=
    ⟨c.max_entries - 1, by omega⟩
  have hfind : ((c.put k v t0).entries.find? fun p => decide (p.1 = k)) =
      some (k, { data := v, created_at := t0, ttl := c.ttl_seconds }) := by
    simp [QueryCache.put, hm, List.take_succ_cons, List.find?_cons]
  refine ⟨?_, ?_, ?_⟩
  · intro hle
    have hexp : CacheEntry.is_expired
        { data := v, created_at := t0, ttl := c.ttl_seconds } now = false := by
      simp [CacheEntry.is_expired]
      omega
    simp [QueryCache.get, hfind, hexp]
  · intro hgt
    have hexp : CacheEntry.is_expired
        { data := v, created_at := t0, ttl := c.ttl_seconds } now = true := by
      simp [CacheEntry.is_expired]
      omega
    refine ⟨?_, ?_, ?_⟩
    · simp [QueryCache.get, hfind, hexp]
    · simp [QueryCache.get, hfind, hexp, QueryCache.find, List.find?_filter]
    · simp [QueryCache.get, hfind, hexp]
  · intro c' now' p
    simp [QueryCache.evict_expired, List.mem_filter]

/-- Witness for C6: a concrete default cache, a concrete key and payload,
with the ttl (300) not yet elapsed at `now = 300` and strictly elapsed at
`now = 301`. -/
theorem cache_ttl_spec_witness :
    ((QueryCache.with_defaults.put
        (CacheKey.new "History" "2024-01-01" "2024-01-02" none none)
        [plainRecord] 0).get
          (CacheKey.new "History" "2024-01-01" "2024-01-02" none none) 300).1 =
      some [plainRecord] ∧
    ((QueryCache.with_defaults.put
        (CacheKey.new "History" "2024-01-01" "2024-01-02" none none)
        [plainRecord] 0).get
          (CacheKey.new "History" "2024-01-01" "2024-01-02" none none) 301).1 = none :=
  ⟨(cache_ttl_spec QueryCache.with_defaults _ [plainRecord] 0 300
      (by with_unfolding_all decide)).1 (by with_unfolding_all decide),
   ((cache_ttl_spec QueryCache.with_defaults _ [plainRecord] 0 301
      (by with_unfolding_all decide)).2.1 (by with_unfolding_all decide)).1⟩

/-- C7.  `put` followed immediately by `get` (same instant, no eviction in
between) returns exactly the stored payload; and `clear` resets the entries
and both counters, so afterwards every `get` misses and the statistics
(read on the cleared cache) report zero hits and zero misses. -/
theorem cache_put_get_clear_spec (c : QueryCache) (k : CacheKey)
    (v : List HistoryRecord) (t : ℕ) (hcap : 0 < c.max_entries) :
    ((c.put k v t).get k t).1 = some v ∧
    (∀ (k' : CacheKey) (now : ℕ), ((c.clear).get k' now).1 = none) ∧
    (c.clear).get_stats.hits = 0 ∧ (c.clear).get_stats.misses = 0 := by
  refine ⟨?_, ?_, rfl, rfl⟩
  · exact (cache_ttl_spec c k v t t hcap).1 (by omega)
  · intro k' now
    simp [QueryCache.clear, QueryCache.get]

/-- Witness for C7: the concrete default cache with a concrete key and
payload. -/
theorem cache_put_get_clear_spec_witness :
    ((QueryCache.with_defaults.put
        (CacheKey.new "History" "2024-01-01" "2024-01-02" none none)
        [plainRecord] 7).get
          (CacheKey.new "History" "2024-01-01" "2024-01-02" none none) 7).1 =
      some [plainRecord] ∧
    QueryCache.with_defaults.clear.get_stats.hits = 0 :=
  ⟨(cache_put_get_clear_spec QueryCache.with_defaults _ [plainRecord] 7
      (by with_unfolding_all decide)).1,
   (cache_put_get_clear_spec QueryCache.with_defaults
      (CacheKey.new "History" "2024-01-01" "2024-01-02" none none) [] 0
      (by with_unfolding_all decide)).2.2.1⟩

/-! ## C2: downsampling -/

theorem mem_stride_sample {cap : ℕ} {xs : List HistoryRecord} {r : HistoryRecord}
    (h : r ∈ stride_sample cap xs) : r ∈ xs := by
  unfold stride_sample at h
  split at h
  · exact h
  · rcases List.mem_map.mp h with ⟨q, hq, rfl⟩
    have : q.2 ∈ xs.enum.map Prod.snd :=
      List.mem_map_of_mem Prod.snd (List.mem_of_mem_filter hq)
    rwa [List.enum_map_snd] at this

theorem filter_flatMap_comm {α β : Type} (g : List α) (h : α → List β) (p : β → Bool) :
    (g.flatMap h).filter p = g.flatMap fun a => (h a).filter p := by
  induction g with
  | nil => rfl
  | cons a g ih => simp [List.flatMap_cons, List.filter_append, ih]

/-- In an association list with nodup keys, a flatMap whose function
vanishes away from key `k` collapses to its value on the (unique) entry
with key `k`. -/
theorem flatMap_eq_of_unique_key {α κ : Type} [DecidableEq κ]
    {g : List (κ × List α)} (hnd : (g.map Prod.fst).Nodup)
    {k : κ} {xs : List α} (hmem : (k, xs) ∈ g) (f : κ × List α → List α)
    (hz : ∀ q ∈ g, q.1 ≠ k → f q = []) :
    g.flatMap f = f (k, xs) := by
  induction g with
  | nil => simp at hmem
  | cons q rest ih =>
    rcases List.mem_cons.mp hmem with rfl | hmem'
    · have hrest : ∀ q' ∈ rest, f q' = [] := by
        intro q' hq'
        refine hz q' (by simp [hq']) ?_
        intro hEq
        have : q'.1 ∈ rest.map Prod.fst := List.mem_map_of_mem Prod.fst hq'
        rw [hEq] at this
        exact (List.nodup_cons.mp (by simpa using hnd)).1 this
      have : rest.flatMap f = [] := by
        apply List.flatMap_eq_nil_iff.mpr
        intro q' hq'
        exact hrest q' hq'
      simp [List.flatMap_cons, this]
    · have hk : k ∈ rest.map Prod.fst := by
        have := List.mem_map_of_mem Prod.fst hmem'
        simpa using this
      have hq1 : q.1 ≠ k := by
        intro hEq
        rw [← hEq] at hk
        exact (List.nodup_cons.mp (by simpa using hnd)).1 hk
      rw [List.flatMap_cons, hz q (by simp) hq1, List.nil_append]
      exact ih (List.Nodup.of_cons (by simpa using hnd)) hmem'
        (fun q' hq' hne => hz q' (by simp [hq']) hne)

theorem length_filter_enum {α : Type} (p : ℕ → Bool) (xs : List α) :
    (xs.enum.filter fun q => p q.1).length = ((List.range xs.length).filter p).length := by
  conv_rhs => rw [← List.enum_map_fst xs]
  rw [List.filter_map, List.length_map]
  rfl

theorem length_filter_mod_range (s : ℕ) (hs : 0 < s) :
    ∀ n, ((List.range n).filter fun i => decide (i % s = 0)).length = (n + s - 1) / s := by
  intro n
  induction n with
  | zero =>
    simp only [List.range_zero, List.filter_nil, List.length_nil]
    exact (Nat.div_eq_of_lt (by omega : 0 + s - 1 < s)).symm
  | succ n ih =>
    rw [List.range_succ, List.filter_append, List.length_append, ih]
    have hsingle : (List.filter (fun i => decide (i % s = 0)) [n]).length =
        if n % s = 0 then 1 else 0 := by
      by_cases h : n % s = 0 <;> simp [h]
    rw [hsingle]
    have hgoal : (n + 1 + s - 1) / s = n / s + 1 := by
      have hns : n + 1 + s - 1 = n + s := by omega
      rw [hns, Nat.add_div_right n hs]
    rw [hgoal]
    by_cases h : n % s = 0
    · rw [if_pos h]
      obtain ⟨q, rfl⟩ := Nat.dvd_of_mod_eq_zero h
      have key : s * q + s - 1 = (s - 1) + q * s := by
        have hc : q * s = s * q := by ring
        omega
      rw [key, Nat.add_mul_div_right _ _ hs, Nat.div_eq_of_lt (by omega : s - 1 < s)]
      rw [Nat.mul_comm, Nat.mul_div_cancel _ hs]
      omega
    · rw [if_neg h]
      have hr1 : 1 ≤ n % s := Nat.one_le_iff_ne_zero.mpr h
      have key : n + s - 1 = (n % s - 1) + (n / s + 1) * s := by
        have hq := Nat.div_add_mod n s
        have hc : (n / s + 1) * s = s * (n / s) + s := by ring
        omega
      have hlt : n % s < s := Nat.mod_lt n hs
      rw [key, Nat.add_mul_div_right _ _ hs,
        Nat.div_eq_of_lt (by omega : n % s - 1 < s)]
      omega

/-- C2, counterexample.  The claim's per-series cap fails: a single-tag
series of 5001 points has `step = 5001 / 5000 = 1`, so every index is
divisible by the stride and all 5001 points are kept — strictly more than
the claimed 5000-point bound. -/
theorem downsample_cap_exceeded :
    5000 < (downsample (List.replicate 5001 plainRecord) 5000).length ∧
    (downsample (List.replicate 5001 plainRecord) 5000).length = 5001 := by
  have hne : (List.replicate 5001 plainRecord) ≠ [] := by
    intro h
    have h2 := congrArg List.length h
    rw [List.length_replicate, List.length_nil] at h2
    omega
  have hstride : stride_sample 5000 (List.replicate 5001 plainRecord) =
      List.replicate 5001 plainRecord := by
    rw [stride_sample, if_neg (by rw [List.length_replicate]; omega)]
    show ((List.replicate 5001 plainRecord).enum.filter fun q =>
        decide (q.1 % ((List.replicate 5001 plainRecord).length / 5000) = 0)).map Prod.snd =
      List.replicate 5001 plainRecord
    have hall : ((List.replicate 5001 plainRecord).enum.filter fun q =>
        decide (q.1 % ((List.replicate 5001 plainRecord).length / 5000) = 0)) =
        (List.replicate 5001 plainRecord).enum := by
      apply List.filter_eq_self.mpr
      intro q _
      rw [List.length_replicate]
      simp [Nat.mod_one]
    rw [hall, List.enum_map_snd]
  have hmain : downsample (List.replicate 5001 plainRecord) 5000 =
      sortByDateTime (stride_sample 5000 (List.replicate 5001 plainRecord)) := by
    rw [downsample, if_neg hne]
    rw [groupByKey_replicate (fun r => r.tag_name) plainRecord 5001 (by omega)]
    show sortByDateTime
        (([(plainRecord.tag_name, List.replicate 5001 plainRecord)] :
          List (String × List HistoryRecord)).flatMap fun p => stride_sample 5000 p.2) =
      sortByDateTime (stride_sample 5000 (List.replicate 5001 plainRecord))
    rw [List.flatMap_cons, List.flatMap_nil, List.append_nil]
  have hlen : (downsample (List.replicate 5001 plainRecord) 5000).length = 5001 := by
    rw [hmain, hstride, sortByDateTime, List.length_mergeSort, List.length_replicate]
  exact ⟨by omega, hlen⟩

/-- C2 (amended).  Downsampling is always applied last (every
`process_query_result` output is `Ok (downsample mid 5000)` for some
intermediate `mid`); each tag's records in the output are, up to the final
time sort, exactly `stride_sample` of that tag's group — unchanged when the
group is within the cap, otherwise precisely the indices divisible by
`step = count / cap`; and the per-series output size is bounded by
`2 * cap - 1`, not by `cap` (the stride keeps `ceil(count / step)` points,
which exceeds the cap whenever `step` does not divide evenly). -/
theorem downsample_stride_spec :
    (∀ (tc : TimeCodec) polarsFn (records : List HistoryRecord)
        (config : Option DataProcessingConfig),
        ∃ mid, process_query_result tc polarsFn records config =
          Except.ok (downsample mid 5000)) ∧
    (∀ (records : List HistoryRecord) (cap : ℕ) (k : String) (xs : List HistoryRecord),
        (k, xs) ∈ groupByKey (fun r => r.tag_name) records →
        ((downsample records cap).filter fun r => decide (r.tag_name = k)).Perm
          (stride_sample cap xs)) ∧
    (∀ (cap : ℕ) (xs : List HistoryRecord), xs.length ≤ cap →
        stride_sample cap xs = xs) ∧
    (∀ (cap : ℕ) (xs : List HistoryRecord), 0 < cap →
        (stride_sample cap xs).length < 2 * cap) := by
  refine ⟨?_, ?_, ?_, ?_⟩
  · intro tc polarsFn records config
    exact ⟨_, rfl⟩
  · intro records cap k xs hmem
    have hne : records ≠ [] := by
      intro h; subst h; simp [groupByKey] at hmem
    have htag : ∀ q ∈ groupByKey (fun r => r.tag_name) records,
        ∀ r ∈ q.2, r.tag_name = q.1 := by
      intro q hq r hr
      rw [mem_groupByKey_eq hq] at hr
      exact of_decide_eq_true (List.mem_filter.mp hr).2
    have hz : ∀ q ∈ groupByKey (fun r => r.tag_name) records, q.1 ≠ k →
        ((stride_sample cap q.2).filter fun r => decide (r.tag_name = k)) = [] := by
      intro q hq hne'
      rw [List.filter_eq_nil_iff]
      intro r hr
      have hrtag := htag q hq r (mem_stride_sample hr)
      simp [hrtag, hne']
    have heq : (((groupByKey (fun r => r.tag_name) records).flatMap
          fun p => stride_sample cap p.2).filter fun r => decide (r.tag_name = k)) =
        stride_sample cap xs := by
      rw [filter_flatMap_comm]
      rw [flatMap_eq_of_unique_key (keys_nodup _ records) hmem
        (fun q => (stride_sample cap q.2).filter fun r => decide (r.tag_name = k)) hz]
      apply List.filter_eq_self.mpr
      intro r hr
      have hrtag := htag (k, xs) hmem r (mem_stride_sample hr)
      simp [hrtag]
    rw [downsample, if_neg hne]
    show ((((groupByKey (fun r => r.tag_name) records).flatMap
        fun p => stride_sample cap p.2).mergeSort
          fun a b => decide (a.date_time ≤ b.date_time)).filter
            fun r => decide (r.tag_name = k)).Perm (stride_sample cap xs)
    have hperm := (List.mergeSort_perm
      ((groupByKey (fun r => r.tag_name) records).flatMap fun p => stride_sample cap p.2)
      fun a b => decide (a.date_time ≤ b.date_time)).filter
        fun r => decide (r.tag_name = k)
    rw [heq] at hperm
    exact hperm
  · intro cap xs h
    rw [stride_sample, if_pos h]
  · intro cap xs hcap
    by_cases h : xs.length ≤ cap
    · rw [stride_sample, if_pos h]; omega
    · rw [stride_sample, if_neg h]
      show ((xs.enum.filter fun q =>
          decide (q.1 % (xs.length / cap) = 0)).map Prod.snd).length < 2 * cap
      rw [List.length_map,
        length_filter_enum (fun i => decide (i % (xs.length / cap) = 0)) xs]
      have hs : 0 < xs.length / cap :=
        (Nat.one_le_div_iff hcap).mpr (by omega)
      rw [length_filter_mod_range _ hs xs.length]
      have hlt : xs.length < (xs.length / cap + 1) * cap :=
        (Nat.div_lt_iff_lt_mul hcap).mp (Nat.lt_succ_self _)
      rw [Nat.div_lt_iff_lt_mul hs]
      obtain ⟨c', rfl⟩ : ∃ c', cap = c' + 1 := ⟨cap - 1, by omega⟩
      obtain ⟨s', hs'⟩ : ∃ s', xs.length / (c' + 1) = s' + 1 :=
        ⟨xs.length / (c' + 1) - 1, by omega⟩
      rw [hs'] at hlt ⊢
      have hmonus : xs.length + (s' + 1) - 1 = xs.length + s' := by omega
      rw [hmonus]
      nlinarith

/-- Witness for C2: the amended theorem applied at concrete inputs — a
one-record input is per-tag preserved, the below-cap branch is the
identity, and the stride bound holds for a concrete over-cap series. -/
theorem downsample_stride_spec_witness :
    ((downsample [plainRecord] 5000).filter fun r => decide (r.tag_name = "Tag1")).Perm
      (stride_sample 5000 [plainRecord]) ∧
    stride_sample 5000 [plainRecord] = [plainRecord] ∧
    (stride_sample 1 (List.replicate 3 plainRecord)).length < 2 * 1 :=
  ⟨downsample_stride_spec.2.1 [plainRecord] 5000 "Tag1" [plainRecord]
      (by with_unfolding_all decide),
   downsample_stride_spec.2.2.1 5000 [plainRecord] (by with_unfolding_all decide),
   downsample_stride_spec.2.2.2 1 (List.replicate 3 plainRecord) (by omega)⟩

/-! ## C8: processing-signature collisions -/

theorem xor64_lt (a b : ℕ) : xor64 a b < M64 :=
  Nat.mod_lt _ (by norm_num [M64])

theorem sipMain_lt : ∀ (bs : List ℕ) (s : SipState) (len : ℕ), sipMain s len bs < M64 := by
  have H : ∀ (n : ℕ) (bs : List ℕ), bs.length ≤ n → ∀ (s : SipState) (len : ℕ),
      sipMain s len bs < M64 := by
    intro n
    induction n with
    | zero =>
      intro bs hb s len
      match bs, hb with
      | [], _ => exact xor64_lt _ _
    | succ n ih =>
      intro bs hb s len
      match bs with
      | [] => exact xor64_lt _ _
      | [b0] => exact xor64_lt _ _
      | [b0, b1] => exact xor64_lt _ _
      | [b0, b1, b2] => exact xor64_lt _ _
      | [b0, b1, b2, b3] => exact xor64_lt _ _
      | [b0, b1, b2, b3, b4] => exact xor64_lt _ _
      | [b0, b1, b2, b3, b4, b5] => exact xor64_lt _ _
      | [b0, b1, b2, b3, b4, b5, b6] => exact xor64_lt _ _
      | b0 :: b1 :: b2 :: b3 :: b4 :: b5 :: b6 :: b7 :: rest =>
        have hlen : rest.length ≤ n := by
          simp only [List.length_cons] at hb
          omega
        exact ih rest hlen _ _
  intro bs s len
  exact H bs.length bs le_rfl s len

theorem processingConfigHash_lt (c : DataProcessingConfig) :
    processingConfigHash c < M64 :=
  sipMain_lt _ _ _

/-- C8, counterexample (negation of the claim).  The `processing_signature`
is a 64-bit hash of an unbounded input, so it cannot be collision-free: by
pigeonhole over the infinite family `cfgVariant` (which varies only the
smoothing method string), two configurations differing in
`smoothing.method` produce *equal* cache keys with all other request
parameters equal. -/
theorem processing_signature_collision :
    ∃ c1 c2 : DataProcessingConfig,
      c1.smoothing.method ≠ c2.smoothing.method ∧
      CacheKey.new "History" "2024-01-01" "2024-01-02" none (some c1) =
        CacheKey.new "History" "2024-01-01" "2024-01-02" none (some c2) := by
  obtain ⟨n, m, hnm, hEq⟩ := Finite.exists_ne_map_eq_of_infinite
    (fun n : ℕ => (⟨processingConfigHash (cfgVariant n),
      processingConfigHash_lt (cfgVariant n)⟩ : Fin M64))
  refine ⟨cfgVariant n, cfgVariant m, ?_, ?_⟩
  · intro h
    apply hnm
    have hlen := congrArg String.length h
    simpa [cfgVariant] using hlen
  · have hh : processingConfigHash (cfgVariant n) = processingConfigHash (cfgVariant m) := by
      have h2 := hEq
      simp only [Fin.mk.injEq] at h2
      exact h2
    unfold CacheKey.new
    simp [hh]

set_option maxRecDepth 100000 in
/-- C8 (amended).  Distinct configurations give distinct signatures only up
to 64-bit hash collisions, which necessarily exist
(`processing_signature_collision`); what does hold concretely is that the
default configuration and its eight single-sub-field variants produce nine
pairwise distinct cache keys — no accidental collision among realistic
configurations of the application. -/
theorem processing_signature_default_variants_distinct :
    defaultConfigVariants.Pairwise fun c1 c2 =>
      CacheKey.new "History" "2024-01-01" "2024-01-02" none (some c1) ≠
        CacheKey.new "History" "2024-01-01" "2024-01-02" none (some c2) := by
  with_unfolding_all decide

/-! ## C5: time-bucket resampling -/

/-- Unfolding of `resample_data` on a nonempty input. -/
theorem resample_data_eq (tc : TimeCodec) (records : List HistoryRecord)
    (interval : ℕ) (hne : records ≠ []) :
    resample_data tc records interval =
      ((groupByKey Prod.fst (records.filterMap fun r =>
          (tc.parse r.date_time).map fun ts =>
            (windowKey ((interval : Int) * 1000) ts, r))).filterMap
        fun p =>
          match p.2 with
          | [] => none
          | w :: ws =>
            some { date_time := tc.fmt p.1
                   tag_name := w.2.tag_name
                   tag_val := ((w :: ws).map fun q => q.2.tag_val).sum /
                     ((w :: ws).length : ℚ)
                   tag_quality := w.2.tag_quality }).mergeSort
        fun a b => decide (a.date_time ≤ b.date_time) := by
  rw [resample_data, if_neg hne]
  rfl

theorem keyed_filter_map_snd (tc : TimeCodec) (interval : ℕ)
    (records : List HistoryRecord) (k : Int) :
    ((records.filterMap fun r =>
        (tc.parse r.date_time).map fun ts =>
          (windowKey ((interval : Int) * 1000) ts, r)).filter
            fun q => decide (q.1 = k)).map Prod.snd =
      windowMembers tc interval records k := by
  induction records with
  | nil => rfl
  | cons r rs ih =>
    cases hp : tc.parse r.date_time with
    | none =>
      simpa [windowMembers, List.filterMap_cons, List.filter_cons, hp] using ih
    | some ts =>
      by_cases hk : windowKey ((interval : Int) * 1000) ts = k
      · simpa [windowMembers, List.filterMap_cons, List.filter_cons, hp, hk] using ih
      · simpa [windowMembers, List.filterMap_cons, List.filter_cons, hp, hk] using ih

theorem length_filterMap_of_isSome {α β : Type} (f : α → Option β) :
    ∀ l : List α, (∀ a ∈ l, (f a).isSome) → (l.filterMap f).length = l.length := by
  intro l
  induction l with
  | nil => intro _; rfl
  | cons a l ih =>
    intro h
    rcases Option.isSome_iff_exists.mp (h a (by simp)) with ⟨b, hb⟩
    rw [List.filterMap_cons, hb]
    simp [ih fun x hx => h x (by simp [hx])]

theorem groupByKey_length {α κ : Type} [DecidableEq κ] (f : α → κ) (l : List α) :
    (groupByKey f l).length = ((l.map f).dedup).length := by
  have h1 : ((groupByKey f l).map Prod.fst).Perm (l.map f).dedup := by
    rw [List.perm_ext_iff_of_nodup (keys_nodup f l) (List.nodup_dedup _)]
    intro k
    rw [List.mem_dedup, mem_keys_groupByKey]
    simp [List.mem_map]
  calc (groupByKey f l).length
      = ((groupByKey f l).map Prod.fst).length := (List.length_map _ _).symm
    _ = ((l.map f).dedup).length := h1.length_eq

/-- C5.  Resampling of a nonempty single-series input at a positive
interval: every output point belongs to an epoch-aligned window key `k`
(a multiple of `interval * 1000` ms, assigned by
`floor(timestamp_ms / interval_ms) * interval_ms`) with a nonempty member
list; its value is the arithmetic mean of the window members, its timestamp
is the formatted window start, its quality is that of the first point
encountered in the window, and the series id is preserved.  Each window
collapses to exactly one point: the output length equals the number of
distinct window keys.  On the spec's example, ten one-per-minute points at
a 120-second interval yield 5 (≤ 6) output points. -/
theorem resample_data_spec (tc : TimeCodec) (records : List HistoryRecord)
    (interval : ℕ) (t : String) (hne : records ≠ []) (hI : 0 < interval)
    (ht : ∀ r ∈ records, r.tag_name = t) :
    (∀ r ∈ resample_data tc records interval, ∃ k : Int,
        (∃ i : Int, k = i * ((interval : Int) * 1000)) ∧
        windowMembers tc interval records k ≠ [] ∧
        r.date_time = tc.fmt k ∧
        r.tag_val = ((windowMembers tc interval records k).map (·.tag_val)).sum /
          ((windowMembers tc interval records k).length : ℚ) ∧
        (∃ w, (windowMembers tc interval records k).head? = some w ∧
          r.tag_quality = w.tag_quality) ∧
        r.tag_name = t) ∧
    (resample_data tc records interval).length =
      ((records.filterMap fun r =>
        (tc.parse r.date_time).map fun ts =>
          windowKey ((interval : Int) * 1000) ts).dedup).length ∧
    (resample_data decCodec resampleExample 120).length = 5 := by
  refine ⟨?_, ?_, by with_unfolding_all decide⟩
  · intro r hr
    rw [resample_data_eq tc records interval hne] at hr
    rw [(List.mergeSort_perm _ _).mem_iff] at hr
    rcases List.mem_filterMap.mp hr with ⟨p, hp, hagg⟩
    rcases hlist : p.2 with _ | ⟨w, ws⟩
    · exact absurd hlist (mem_groupByKey_ne_nil hp)
    rw [hlist] at hagg
    have hmembers : w.2 :: ws.map Prod.snd = windowMembers tc interval records p.1 := by
      have h2 := keyed_filter_map_snd tc interval records p.1
      rw [← mem_groupByKey_eq hp, hlist] at h2
      simpa using h2
    have hragg : r = { date_time := tc.fmt p.1
                       tag_name := w.2.tag_name
                       tag_val := ((w :: ws).map fun q => q.2.tag_val).sum /
                         ((w :: ws).length : ℚ)
                       tag_quality := w.2.tag_quality } := by
      cases hagg
      rfl
    have hw2mem : w.2 ∈ records := by
      have hw : w ∈ p.2 := by rw [hlist]; exact List.mem_cons_self _ _
      rw [mem_groupByKey_eq hp] at hw
      have hwk := List.mem_of_mem_filter hw
      rcases List.mem_filterMap.mp hwk with ⟨r0, hr0, hsome⟩
      cases hparse : tc.parse r0.date_time with
      | none => simp [hparse] at hsome
      | some ts =>
        rw [hparse] at hsome
        simp only [Option.map_some', Option.some.injEq] at hsome
        rw [← hsome]
        exact hr0
    refine ⟨p.1, ?_, ?_, ?_, ?_, ?_, ?_⟩
    · -- epoch alignment: the key is a multiple of interval_ms
      have hkey : p.1 ∈ (groupByKey Prod.fst (records.filterMap fun r =>
          (tc.parse r.date_time).map fun ts =>
            (windowKey ((interval : Int) * 1000) ts, r))).map Prod.fst :=
        List.mem_map_of_mem Prod.fst hp
      rcases (mem_keys_groupByKey _ _ _).mp hkey with ⟨q, hq, hfst⟩
      rcases List.mem_filterMap.mp hq with ⟨r0, _, hsome⟩
      cases hparse : tc.parse r0.date_time with
      | none => simp [hparse] at hsome
      | some ts =>
        rw [hparse] at hsome
        simp only [Option.map_some', Option.some.injEq] at hsome
        refine ⟨ts.tdiv ((interval : Int) * 1000), ?_⟩
        rw [← hfst, ← hsome]
        rfl
    · rw [← hmembers]
      simp
    · rw [hragg]
    · rw [hragg, ← hmembers]
      simp only [List.map_cons, List.map_map, List.length_cons, List.length_map]
      rfl
    · refine ⟨w.2, ?_, ?_⟩
      · rw [← hmembers]
        rfl
      · rw [hragg]
    · rw [hragg]
      exact ht w.2 hw2mem
  · rw [resample_data_eq tc records interval hne, List.length_mergeSort]
    rw [length_filterMap_of_isSome _ _ ?_]
    · rw [groupByKey_length, List.map_filterMap]
      simp only [Option.map_map]
      rfl
    · intro p hp
      rcases hlist : p.2 with _ | ⟨w, ws⟩
      · exact absurd hlist (mem_groupByKey_ne_nil hp)
      · rfl

/-- Witness for C5: the theorem applied to the concrete ten-minute example
at interval 120, at the concrete window-0 output point (mean of the first
two minutes, formatted window start, first member's quality). -/
theorem resample_data_spec_witness :
    ∃ k : Int,
      (∃ i : Int, k = i * ((120 : Int) * 1000)) ∧
      windowMembers decCodec 120 resampleExample k ≠ [] ∧
      ("0" : String) = decCodec.fmt k ∧
      ((1 : ℚ) / 2) = ((windowMembers decCodec 120 resampleExample k).map (·.tag_val)).sum /
        ((windowMembers decCodec 120 resampleExample k).length : ℚ) ∧
      (∃ w, (windowMembers decCodec 120 resampleExample k).head? = some w ∧
        ("Good" : String) = w.tag_quality) ∧
      ("T" : String) = "T" :=
  (resample_data_spec decCodec resampleExample 120 "T"
      (by with_unfolding_all decide) (by omega)
      (by with_unfolding_all decide)).1
    ⟨"0", "T", 1/2, "Good"⟩ (by with_unfolding_all decide)

/-! ## C1: the two execution strategies -/

/-- C1, counterexample.  The strategies are not equivalent for stage 1: on
eleven single-tag records with values 10..19 and 100 and a configuration
enabling only 3-sigma outlier rejection, the row-wise strategy removes the
value-100 record (it is just outside three *population* sigmas) while the
columnar strategy keeps it (it is just inside three *sample* (`std(1)`)
sigmas), so the outputs have different lengths.  (The strategies also
differ in stage order: the unified Polars pipeline smooths before
resampling, the row-wise path after.) -/
theorem strategies_not_equivalent :
    (process_data decCodec strategyGapExample cfgOutlierOnly).length = 10 ∧
    (process_data_polars decCodec strategyGapExample cfgOutlierOnly).length = 11 ∧
    process_data decCodec strategyGapExample cfgOutlierOnly ≠
      process_data_polars decCodec strategyGapExample cfgOutlierOnly := by
  refine ⟨?_, ?_, ?_⟩
  · with_unfolding_all decide
  · with_unfolding_all decide
  · intro h
    have h10 : (process_data decCodec strategyGapExample cfgOutlierOnly).length = 10 := by
      with_unfolding_all decide
    have h11 : (process_data_polars decCodec strategyGapExample cfgOutlierOnly).length = 11 := by
      with_unfolding_all decide
    rw [h, h11] at h10
    omega

theorem flatMap_perm_congr {α β : Type} (l : List α) (f g : α → List β)
    (h : ∀ a ∈ l, (f a).Perm (g a)) : (l.flatMap f).Perm (l.flatMap g) := by
  induction l with
  | nil => rfl
  | cons a l ih =>
    simp only [List.flatMap_cons]
    exact (h a (by simp)).append (ih fun x hx => h x (by simp [hx]))

theorem nodup_flatMap_of_disjoint {α β : Type} (l : List α) (f : α → List β)
    (h1 : ∀ a ∈ l, (f a).Nodup)
    (h2 : l.Pairwise fun a b => ∀ x ∈ f a, x ∉ f b) : (l.flatMap f).Nodup := by
  induction l with
  | nil => simp
  | cons a l ih =>
    rw [List.flatMap_cons, List.nodup_append]
    refine ⟨h1 a (by simp), ih (fun x hx => h1 x (by simp [hx]))
      (List.Pairwise.of_cons h2), ?_⟩
    intro x hx hmem
    rcases List.mem_flatMap.mp hmem with ⟨b, hb, hxb⟩
    exact (List.rel_of_pairwise_cons h2 hb) x hx hxb

theorem addToGroup_map {α β κ : Type} [DecidableEq κ] (h : α → β) (k : κ) (x : α)
    (g : List (κ × List α)) :
    addToGroup k (h x) (g.map fun p => (p.1, p.2.map h)) =
      (addToGroup k x g).map fun p => (p.1, p.2.map h) := by
  induction g with
  | nil => simp [addToGroup]
  | cons p rest ih =>
    by_cases hk : p.1 = k
    · simp [addToGroup, hk]
    · simp [addToGroup, hk, ih]

/-- Grouping a mapped list by `f` is grouping the original list by `f ∘ h`
and mapping the member lists. -/
theorem groupByKey_map {α β κ : Type} [DecidableEq κ] (h : α → β) (f : β → κ)
    (l : List α) :
    groupByKey f (l.map h) =
      (groupByKey (fun x => f (h x)) l).map fun p => (p.1, p.2.map h) := by
  induction l with
  | nil => rfl
  | cons x l ih =>
    rw [List.map_cons, groupByKey, groupByKey, ih, addToGroup_map]

theorem filterMap_congr_mem {α β : Type} {f g : α → Option β} :
    ∀ {l : List α}, (∀ a ∈ l, f a = g a) → l.filterMap f = l.filterMap g := by
  intro l
  induction l with
  | nil => intro _; rfl
  | cons a l ih =>
    intro h
    rw [List.filterMap_cons, List.filterMap_cons, h a (by simp),
      ih fun x hx => h x (by simp [hx])]

theorem nodup_filterMap_of_inj {α β : Type} (f : α → Option β) :
    ∀ (l : List α), l.Nodup →
      (∀ a ∈ l, ∀ b ∈ l, ∀ c, f a = some c → f b = some c → a = b) →
      (l.filterMap f).Nodup := by
  intro l
  induction l with
  | nil => intro _ _; simp
  | cons a l ih =>
    intro hnd hinj
    rw [List.filterMap_cons]
    cases hfa : f a with
    | none =>
      exact ih (List.Nodup.of_cons hnd) fun x hx y hy c hxc hyc =>
        hinj x (by simp [hx]) y (by simp [hy]) c hxc hyc
    | some c =>
      rw [List.nodup_cons]
      refine ⟨?_, ih (List.Nodup.of_cons hnd) fun x hx y hy d hxd hyd =>
        hinj x (by simp [hx]) y (by simp [hy]) d hxd hyd⟩
      intro hc
      rcases List.mem_filterMap.mp hc with ⟨b, hb, hfb⟩
      have hab : a = b := hinj a (by simp) b (by simp [hb]) c hfa hfb
      rw [hab] at hnd
      exact (List.nodup_cons.mp hnd).1 hb

theorem eq_of_mem_groupByKey_fst_eq {α κ : Type} [DecidableEq κ] {f : α → κ}
    {l : List α} {p q : κ × List α} (hp : p ∈ groupByKey f l)
    (hq : q ∈ groupByKey f l) (h : p.1 = q.1) : p = q := by
  have h2 : p.2 = q.2 := by
    rw [mem_groupByKey_eq hp, mem_groupByKey_eq hq, h]
  exact Prod.ext h h2

theorem mem_groupByKey_of_achieved {α κ : Type} [DecidableEq κ] {f : α → κ}
    {l : List α} {x : α} (hx : x ∈ l) :
    (f x, l.filter fun y => decide (f y = f x)) ∈ groupByKey f l := by
  have hkey : f x ∈ (groupByKey f l).map Prod.fst :=
    (mem_keys_groupByKey f l (f x)).mpr ⟨x, hx, rfl⟩
  rcases List.mem_map.mp hkey with ⟨p, hp, hfst⟩
  have h2 := mem_groupByKey_eq hp
  have : p = (f x, l.filter fun y => decide (f y = f x)) := by
    refine Prod.ext hfst ?_
    rw [h2, hfst]
  rw [← this]
  exact hp

/-- A window key listed in the grouped structure of `resample_data` is an
achieved key: some record of the input parses into it. -/
theorem key_achieved_of_mem_groups (tc : TimeCodec) (interval : ℕ)
    (g : List HistoryRecord) {p : Int × List (Int × HistoryRecord)}
    (hp : p ∈ groupByKey Prod.fst (g.filterMap fun r =>
      (tc.parse r.date_time).map fun ts => (windowKey ((interval : Int) * 1000) ts, r))) :
    p.1 ∈ g.filterMap fun r =>
      (tc.parse r.date_time).map fun ts => windowKey ((interval : Int) * 1000) ts := by
  have hkey := List.mem_map_of_mem Prod.fst hp
  rcases (mem_keys_groupByKey _ _ _).mp hkey with ⟨q, hq, hfst⟩
  rcases List.mem_filterMap.mp hq with ⟨r0, hr0, hsome⟩
  cases hparse : tc.parse r0.date_time with
  | none => simp [hparse] at hsome
  | some ts =>
    rw [hparse] at hsome
    simp only [Option.map_some', Option.some.injEq] at hsome
    refine List.mem_filterMap.mpr ⟨r0, hr0, ?_⟩
    rw [hparse, Option.map_some', Option.some.injEq, ← hfst, ← hsome]

/-- Membership characterisation of `resample_data` on a nonempty input:
the output points are exactly the aggregates of the nonempty windows. -/
theorem mem_resample_data_iff (tc : TimeCodec) (interval : ℕ)
    (g : List HistoryRecord) (hgne : g ≠ []) (r : HistoryRecord) :
    r ∈ resample_data tc g interval ↔
      ∃ (k : Int) (w : HistoryRecord) (ws : List HistoryRecord),
        windowMembers tc interval g k = w :: ws ∧
        r = { date_time := tc.fmt k
              tag_name := w.tag_name
              tag_val := ((w :: ws).map (·.tag_val)).sum / ((w :: ws).length : ℚ)
              tag_quality := w.tag_quality } := by
  rw [resample_data_eq tc g interval hgne, (List.mergeSort_perm _ _).mem_iff]
  constructor
  · intro hr
    rcases List.mem_filterMap.mp hr with ⟨p, hp, hagg⟩
    rcases hlist : p.2 with _ | ⟨w, ws⟩
    · exact absurd hlist (mem_groupByKey_ne_nil hp)
    rw [hlist] at hagg
    have hmembers : w.2 :: ws.map Prod.snd = windowMembers tc interval g p.1 := by
      have h2 := keyed_filter_map_snd tc interval g p.1
      rw [← mem_groupByKey_eq hp, hlist] at h2
      simpa using h2
    refine ⟨p.1, w.2, ws.map Prod.snd, hmembers.symm, ?_⟩
    have hragg : r = { date_time := tc.fmt p.1
                       tag_name := w.2.tag_name
                       tag_val := ((w :: ws).map fun q => q.2.tag_val).sum /
                         ((w :: ws).length : ℚ)
                       tag_quality := w.2.tag_quality } := by
      cases hagg
      rfl
    rw [hragg]
    simp only [List.map_cons, List.map_map, List.length_cons, List.length_map]
    rfl
  · rintro ⟨k, w, ws, hW, hr⟩
    have hwmem : w ∈ windowMembers tc interval g k := by
      rw [hW]; exact List.mem_cons_self _ _
    have hwpred := List.mem_filter.mp hwmem
    obtain ⟨ts, hts, hkts⟩ : ∃ ts, tc.parse w.date_time = some ts ∧
        windowKey ((interval : Int) * 1000) ts = k := by
      rcases hp : tc.parse w.date_time with _ | ts
      · rw [windowMembers, List.mem_filter, hp] at hwmem
        simp at hwmem
      · refine ⟨ts, rfl, ?_⟩
        have h2 := hwpred.2
        rw [hp] at h2
        exact of_decide_eq_true h2
    have hkw : ((k : Int), w) ∈ (g.filterMap fun r =>
        (tc.parse r.date_time).map fun ts => (windowKey ((interval : Int) * 1000) ts, r)) := by
      refine List.mem_filterMap.mpr ⟨w, hwpred.1, ?_⟩
      rw [hts, Option.map_some', Option.some.injEq, hkts]
    have hPmem := mem_groupByKey_of_achieved (f := Prod.fst) hkw
    set mlist := (g.filterMap fun r =>
      (tc.parse r.date_time).map fun ts =>
        (windowKey ((interval : Int) * 1000) ts, r)).filter
          fun y => decide (y.1 = (k, w).1) with hmlist
    have hsnd : mlist.map Prod.snd = w :: ws := by
      rw [hmlist]
      have := keyed_filter_map_snd tc interval g k
      rw [hW] at this
      exact this
    rcases hml : mlist with _ | ⟨w', ms'⟩
    · rw [hml] at hsnd; simp at hsnd
    rw [hml, List.map_cons, List.cons.injEq] at hsnd
    refine List.mem_filterMap.mpr ⟨((k, w).1, mlist), by rw [hmlist] at hPmem ⊢; exact hPmem, ?_⟩
    rw [hml]
    show some { date_time := tc.fmt k
                tag_name := w'.2.tag_name
                tag_val := ((w' :: ms').map fun q => q.2.tag_val).sum /
                  ((w' :: ms').length : ℚ)
                tag_quality := w'.2.tag_quality } = some r
    have hvals : (w' :: ms').map (fun q => q.2.tag_val) = (w :: ws).map (·.tag_val) := by
      have : ((w' :: ms').map Prod.snd).map (·.tag_val) = (w :: ws).map (·.tag_val) := by
        rw [List.map_cons, hsnd.1, hsnd.2]
      rw [List.map_map] at this
      exact this
    have hlen : (w' :: ms').length = (w :: ws).length := by
      have := congrArg List.length hsnd.2
      simp only [List.length_map] at this
      simp [this]
    rw [hr, hsnd.1, hvals, hlen]

/-- Every output point of `resample_data` carries the tag name of some
input record. -/
theorem tag_of_mem_resample (tc : TimeCodec) (interval : ℕ)
    (g : List HistoryRecord) (r : HistoryRecord)
    (hr : r ∈ resample_data tc g interval) : ∃ w ∈ g, r.tag_name = w.tag_name := by
  by_cases hgne : g = []
  · subst hgne
    simp [resample_data] at hr
  · rcases (mem_resample_data_iff tc interval g hgne r).mp hr with ⟨k, w, ws, hW, hragg⟩
    have hwmem : w ∈ windowMembers tc interval g k := by
      rw [hW]; exact List.mem_cons_self _ _
    exact ⟨w, (List.mem_filter.mp hwmem).1, by rw [hragg]⟩

/-- `resample_data` output has no duplicates provided the formatter is
injective on the achieved window keys (each window emits exactly one point,
and distinct windows get distinct formatted timestamps). -/
theorem nodup_resample_data (tc : TimeCodec) (interval : ℕ) (g : List HistoryRecord)
    (hinj : ∀ k1 ∈ (g.filterMap fun r =>
        (tc.parse r.date_time).map fun ts => windowKey ((interval : Int) * 1000) ts),
      ∀ k2 ∈ (g.filterMap fun r =>
        (tc.parse r.date_time).map fun ts => windowKey ((interval : Int) * 1000) ts),
      tc.fmt k1 = tc.fmt k2 → k1 = k2) :
    (resample_data tc g interval).Nodup := by
  by_cases hgne : g = []
  · subst hgne
    simp [resample_data]
  · rw [resample_data_eq tc g interval hgne]
    rw [(List.mergeSort_perm _ _).nodup_iff]
    apply nodup_filterMap_of_inj
    · exact List.Nodup.of_map _ (keys_nodup _ _)
    · intro p hp q hq c hpc hqc
      rcases hlistp : p.2 with _ | ⟨w, ws⟩
      · exact absurd hlistp (mem_groupByKey_ne_nil hp)
      rcases hlistq : q.2 with _ | ⟨w', ws'⟩
      · exact absurd hlistq (mem_groupByKey_ne_nil hq)
      rw [hlistp] at hpc
      rw [hlistq] at hqc
      have hdp : c.date_time = tc.fmt p.1 := by cases hpc; rfl
      have hdq : c.date_time = tc.fmt q.1 := by cases hqc; rfl
      have hkey : p.1 = q.1 :=
        hinj p.1 (key_achieved_of_mem_groups tc interval g hp)
          q.1 (key_achieved_of_mem_groups tc interval g hq)
          (by rw [← hdp, ← hdq])
      exact eq_of_mem_groupByKey_fst_eq hp hq hkey

/-- The resampling stage of the columnar strategy, converted back to
records, grouped explicitly over the input records: joint `(window, tag)`
groups, one aggregate per nonempty group. -/
theorem polars_resample_eq (tc : TimeCodec) (interval : ℕ)
    (records : List HistoryRecord) :
    dataframe_to_records tc
        (resample_data_polars (records_to_dataframe tc records) interval) =
      (((groupByKey (fun y : HistoryRecord =>
          (windowKey ((interval : Int) * 1000) ((tc.parse y.date_time).getD 0),
            y.tag_name)) records).filterMap
        fun p =>
          match p.2 with
          | [] => none
          | w :: ws =>
            some ({ datetime := p.1.1
                    tag_name := p.1.2
                    tag_val := ((w :: ws).map (·.tag_val)).sum / ((w :: ws).length : ℚ)
                    tag_quality := w.tag_quality } : FrameRow)).mergeSort
          (fun a b => decide (a.datetime ≤ b.datetime))).map
        fun fr => ({ date_time := tc.fmt fr.datetime
                     tag_name := fr.tag_name
                     tag_val := fr.tag_val
                     tag_quality := fr.tag_quality } : HistoryRecord) := by
  have hkeyed : (records_to_dataframe tc records).map
      (fun x => { x with datetime := windowKey ((interval : Int) * 1000) x.datetime }) =
      records.map (fun y =>
        ({ datetime := windowKey ((interval : Int) * 1000) ((tc.parse y.date_time).getD 0)
           tag_name := y.tag_name
           tag_val := y.tag_val
           tag_quality := y.tag_quality } : FrameRow)) := by
    rw [records_to_dataframe, List.map_map]
    rfl
  have h0 : resample_data_polars (records_to_dataframe tc records) interval =
      ((groupByKey (fun row : FrameRow => (row.datetime, row.tag_name))
        ((records_to_dataframe tc records).map fun x =>
          { x with datetime := windowKey ((interval : Int) * 1000) x.datetime })).filterMap
        fun p =>
          match p.2 with
          | [] => none
          | w :: ws =>
            some ({ datetime := p.1.1
                    tag_name := p.1.2
                    tag_val := ((w :: ws).map (·.tag_val)).sum / ((w :: ws).length : ℚ)
                    tag_quality := w.tag_quality } : FrameRow)).mergeSort
          fun a b => decide (a.datetime ≤ b.datetime) := rfl
  have hlist : ((groupByKey (fun row : FrameRow => (row.datetime, row.tag_name))
      ((records_to_dataframe tc records).map fun x =>
        { x with datetime := windowKey ((interval : Int) * 1000) x.datetime })).filterMap
      fun p =>
        match p.2 with
        | [] => none
        | w :: ws =>
          some ({ datetime := p.1.1
                  tag_name := p.1.2
                  tag_val := ((w :: ws).map (·.tag_val)).sum / ((w :: ws).length : ℚ)
                  tag_quality := w.tag_quality } : FrameRow)) =
      ((groupByKey (fun y : HistoryRecord =>
          (windowKey ((interval : Int) * 1000) ((tc.parse y.date_time).getD 0),
            y.tag_name)) records).filterMap
        fun p =>
          match p.2 with
          | [] => none
          | w :: ws =>
            some ({ datetime := p.1.1
                    tag_name := p.1.2
                    tag_val := ((w :: ws).map (·.tag_val)).sum / ((w :: ws).length : ℚ)
                    tag_quality := w.tag_quality } : FrameRow)) := by
    rw [hkeyed, groupByKey_map, List.filterMap_map]
    apply filterMap_congr_mem
    intro p _
    rcases p with ⟨pk, plist⟩
    cases plist with
    | nil => rfl
    | cons w ws =>
      show some _ = some _
      simp only [List.map_cons, List.map_map, List.length_cons, List.length_map,
        Option.some.injEq]
      rfl
  rw [show dataframe_to_records tc
      (resample_data_polars (records_to_dataframe tc records) interval) =
    (resample_data_polars (records_to_dataframe tc records) interval).map
      (fun fr => ({ date_time := tc.fmt fr.datetime
                    tag_name := fr.tag_name
                    tag_val := fr.tag_val
                    tag_quality := fr.tag_quality } : HistoryRecord)) from rfl]
  rw [h0, hlist]

theorem mem_polars_resample_iff (tc : TimeCodec) (interval : ℕ)
    (records : List HistoryRecord) (r : HistoryRecord) :
    r ∈ dataframe_to_records tc
        (resample_data_polars (records_to_dataframe tc records) interval) ↔
      ∃ (k : Int) (t : String) (w : HistoryRecord) (ws : List HistoryRecord),
        records.filter (fun y =>
          decide (windowKey ((interval : Int) * 1000) ((tc.parse y.date_time).getD 0) = k) &&
          decide (y.tag_name = t)) = w :: ws ∧
        r = { date_time := tc.fmt k
              tag_name := t
              tag_val := ((w :: ws).map (·.tag_val)).sum / ((w :: ws).length : ℚ)
              tag_quality := w.tag_quality } := by
  rw [polars_resample_eq]
  rw [List.mem_map]
  have hfilter_congr : ∀ (pk : Int × String),
      (records.filter fun y =>
        decide ((windowKey ((interval : Int) * 1000) ((tc.parse y.date_time).getD 0),
          y.tag_name) = pk)) =
      (records.filter fun y =>
        decide (windowKey ((interval : Int) * 1000) ((tc.parse y.date_time).getD 0) = pk.1) &&
        decide (y.tag_name = pk.2)) := by
    intro pk
    apply List.filter_congr
    intro y _
    simp [Prod.ext_iff]
  constructor
  · rintro ⟨fr, hfr, hr⟩
    rw [(List.mergeSort_perm _ _).mem_iff] at hfr
    rcases List.mem_filterMap.mp hfr with ⟨p, hp, hagg⟩
    rcases hlist : p.2 with _ | ⟨w, ws⟩
    · exact absurd hlist (mem_groupByKey_ne_nil hp)
    rw [hlist] at hagg
    have hmem := mem_groupByKey_eq hp
    rw [hlist] at hmem
    refine ⟨p.1.1, p.1.2, w, ws, ?_, ?_⟩
    · rw [← hfilter_congr p.1, ← hmem]
    · cases hagg
      rw [← hr]
  · rintro ⟨k, t, w, ws, hfil, hr⟩
    have hwmem : w ∈ records.filter (fun y =>
        decide (windowKey ((interval : Int) * 1000) ((tc.parse y.date_time).getD 0) = k) &&
        decide (y.tag_name = t)) := by
      rw [hfil]; exact List.mem_cons_self _ _
    have hw := List.mem_filter.mp hwmem
    have hpredw := hw.2
    rw [Bool.and_eq_true, decide_eq_true_eq, decide_eq_true_eq] at hpredw
    have hFw : (windowKey ((interval : Int) * 1000) ((tc.parse w.date_time).getD 0),
        w.tag_name) = (k, t) := by
      rw [hpredw.1, hpredw.2]
    have hPmem := mem_groupByKey_of_achieved
      (f := fun y : HistoryRecord =>
        (windowKey ((interval : Int) * 1000) ((tc.parse y.date_time).getD 0), y.tag_name))
      hw.1
    beta_reduce at hPmem
    rw [hFw] at hPmem
    have hgroup : (records.filter fun y =>
        decide ((windowKey ((interval : Int) * 1000) ((tc.parse y.date_time).getD 0),
          y.tag_name) = (k, t))) = w :: ws := by
      rw [hfilter_congr (k, t)]
      exact hfil
    rw [hgroup] at hPmem
    refine ⟨{ datetime := k
              tag_name := t
              tag_val := ((w :: ws).map (·.tag_val)).sum / ((w :: ws).length : ℚ)
              tag_quality := w.tag_quality }, ?_, by rw [hr]⟩
    rw [(List.mergeSort_perm _ _).mem_iff]
    exact List.mem_filterMap.mpr ⟨((k, t), w :: ws), hPmem, rfl⟩

theorem nodup_polars_resample (tc : TimeCodec) (interval : ℕ)
    (records : List HistoryRecord)
    (hinj : ∀ k1 ∈ records.map (fun y =>
        windowKey ((interval : Int) * 1000) ((tc.parse y.date_time).getD 0)),
      ∀ k2 ∈ records.map (fun y =>
        windowKey ((interval : Int) * 1000) ((tc.parse y.date_time).getD 0)),
      tc.fmt k1 = tc.fmt k2 → k1 = k2) :
    (dataframe_to_records tc
      (resample_data_polars (records_to_dataframe tc records) interval)).Nodup := by
  rw [polars_resample_eq]
  have hperm := ((List.mergeSort_perm
    ((groupByKey (fun y : HistoryRecord =>
        (windowKey ((interval : Int) * 1000) ((tc.parse y.date_time).getD 0),
          y.tag_name)) records).filterMap
      fun p =>
        match p.2 with
        | [] => none
        | w :: ws =>
          some ({ datetime := p.1.1
                  tag_name := p.1.2
                  tag_val := ((w :: ws).map (·.tag_val)).sum / ((w :: ws).length : ℚ)
                  tag_quality := w.tag_quality } : FrameRow))
    (fun a b => decide (a.datetime ≤ b.datetime))).map
      (fun fr => ({ date_time := tc.fmt fr.datetime
                    tag_name := fr.tag_name
                    tag_val := fr.tag_val
                    tag_quality := fr.tag_quality } : HistoryRecord)))
  rw [hperm.nodup_iff, List.map_filterMap]
  apply nodup_filterMap_of_inj
  · exact List.Nodup.of_map _ (keys_nodup _ _)
  · intro p hp q hq c hpc hqc
    have hach : ∀ {p' : (Int × String) × List HistoryRecord},
        p' ∈ groupByKey (fun y : HistoryRecord =>
          (windowKey ((interval : Int) * 1000) ((tc.parse y.date_time).getD 0),
            y.tag_name)) records →
        p'.1.1 ∈ records.map (fun y =>
          windowKey ((interval : Int) * 1000) ((tc.parse y.date_time).getD 0)) := by
      intro p' hp'
      have hkey := List.mem_map_of_mem Prod.fst hp'
      rcases (mem_keys_groupByKey _ _ _).mp hkey with ⟨y, hy, hFy⟩
      exact List.mem_map.mpr ⟨y, hy, congrArg Prod.fst hFy⟩
    rcases hlistp : p.2 with _ | ⟨w, ws⟩
    · exact absurd hlistp (mem_groupByKey_ne_nil hp)
    rcases hlistq : q.2 with _ | ⟨w', ws'⟩
    · exact absurd hlistq (mem_groupByKey_ne_nil hq)
    rw [hlistp] at hpc
    rw [hlistq] at hqc
    have hdp : c.date_time = tc.fmt p.1.1 ∧ c.tag_name = p.1.2 := by
      cases hpc; exact ⟨rfl, rfl⟩
    have hdq : c.date_time = tc.fmt q.1.1 ∧ c.tag_name = q.1.2 := by
      cases hqc; exact ⟨rfl, rfl⟩
    have hk : p.1.1 = q.1.1 :=
      hinj p.1.1 (hach hp) q.1.1 (hach hq) (by rw [← hdp.1, ← hdq.1])
    have ht : p.1.2 = q.1.2 := by rw [← hdp.2, ← hdq.2]
    exact eq_of_mem_groupByKey_fst_eq hp hq (Prod.ext hk ht)

/-- C1 (amended).  The two execution strategies agree — up to output order,
which the unspecified hash-map iteration makes the only meaningful
comparison — exactly on the configurations that avoid the divergent stages:
when outlier removal is off and smoothing is off (or has window ≤ 1), so
that stages 1-3 reduce to resampling (or to a pass-through), the row-wise
and the columnar pipelines produce permutations of each other, for every
input whose timestamps parse and round-trip through the formatter
(`hparse`) and whose achieved window keys format injectively (`hfmt`, true
of the real ISO formatter).  With outlier removal enabled they differ
(sample vs population sigma, no 3-point guard; see
`strategies_not_equivalent`), and with smoothing enabled they differ (stage
order and window semantics). -/
theorem process_strategies_agree_without_outlier_smoothing
    (tc : TimeCodec) (records : List HistoryRecord) (config : DataProcessingConfig)
    (hout : config.outlier_removal.enabled = false)
    (hsm : ¬(config.smoothing.enabled = true ∧ 1 < config.smoothing.window))
    (hparse : ∀ r ∈ records, (tc.parse r.date_time).isSome ∧
        tc.fmt ((tc.parse r.date_time).getD 0) = r.date_time)
    (hfmt : ∀ k1 ∈ (records.filterMap fun r =>
          (tc.parse r.date_time).map fun ts =>
            windowKey ((config.resample.interval : Int) * 1000) ts),
        ∀ k2 ∈ (records.filterMap fun r =>
          (tc.parse r.date_time).map fun ts =>
            windowKey ((config.resample.interval : Int) * 1000) ts),
        tc.fmt k1 = tc.fmt k2 → k1 = k2) :
    (process_data tc records config).Perm (process_data_polars tc records config) := by
  by_cases hne : records = []
  · subst hne
    simp [process_data, process_data_polars]
  have hparse1 : ∀ r ∈ records, (tc.parse r.date_time).isSome :=
    fun r hr => (hparse r hr).1
  have hL : process_data tc records config =
      sortByDateTime ((groupByKey (fun r => r.tag_name) records).flatMap
        fun p => process_tag_data tc p.2 config) := by
    rw [process_data, if_neg hne]
  have hR : process_data_polars tc records config =
      sortByDateTime (dataframe_to_records tc
        (process_unified_pipeline (records_to_dataframe tc records) config)) := by
    rw [process_data_polars, if_neg hne]
  have hpt : ∀ g : List HistoryRecord, process_tag_data tc g config =
      if config.resample.enabled ∧ 0 < config.resample.interval
      then resample_data tc g config.resample.interval else g := by
    intro g
    rw [process_tag_data]
    simp only [hout, Bool.false_eq_true, if_false]
    rw [if_neg hsm]
  have hpipe : process_unified_pipeline (records_to_dataframe tc records) config =
      if config.resample.enabled ∧ 0 < config.resample.interval
      then resample_data_polars (records_to_dataframe tc records) config.resample.interval
      else records_to_dataframe tc records := by
    rw [process_unified_pipeline]
    simp only [hout, Bool.false_eq_true, if_false]
    rw [if_neg hsm]
  by_cases hres : config.resample.enabled ∧ 0 < config.resample.interval
  case neg =>
    have hL1 : (process_data tc records config).Perm records := by
      rw [hL, sortByDateTime]
      refine (List.mergeSort_perm _ _).trans ?_
      rw [List.flatMap_congr fun p _ => by rw [hpt, if_neg hres]]
      exact flatMap_groupByKey_perm _ _
    have hR1 : (process_data_polars tc records config).Perm records := by
      rw [hR, hpipe, if_neg hres, sortByDateTime]
      refine (List.mergeSort_perm _ _).trans ?_
      have hid : dataframe_to_records tc (records_to_dataframe tc records) = records := by
        rw [show dataframe_to_records tc (records_to_dataframe tc records) =
          (records.map fun r =>
            ({ datetime := (tc.parse r.date_time).getD 0
               tag_name := r.tag_name
               tag_val := r.tag_val
               tag_quality := r.tag_quality } : FrameRow)).map
            (fun w => ({ date_time := tc.fmt w.datetime
                         tag_name := w.tag_name
                         tag_val := w.tag_val
                         tag_quality := w.tag_quality } : HistoryRecord)) from rfl]
        rw [List.map_map]
        have hpt2 : ∀ r ∈ records,
            (({ date_time := tc.fmt ((tc.parse r.date_time).getD 0)
                tag_name := r.tag_name
                tag_val := r.tag_val
                tag_quality := r.tag_quality } : HistoryRecord)) = r := by
          intro r hr
          have h2 := (hparse r hr).2
          cases r
          rw [h2]
        calc records.map _ = records.map id := List.map_congr_left fun r hr => hpt2 r hr
          _ = records := List.map_id records
      rw [hid]
    exact hL1.trans hR1.symm
  case pos =>
    have hLperm : (process_data tc records config).Perm
        ((groupByKey (fun r => r.tag_name) records).flatMap
          fun p => resample_data tc p.2 config.resample.interval) := by
      rw [hL, sortByDateTime]
      refine (List.mergeSort_perm _ _).trans ?_
      rw [List.flatMap_congr fun p _ => by rw [hpt, if_pos hres]]
    have hRperm : (process_data_polars tc records config).Perm
        (dataframe_to_records tc (resample_data_polars
          (records_to_dataframe tc records) config.resample.interval)) := by
      rw [hR, hpipe, if_pos hres, sortByDateTime]
      exact List.mergeSort_perm _ _
    suffices hmain : ((groupByKey (fun r => r.tag_name) records).flatMap
        fun p => resample_data tc p.2 config.resample.interval).Perm
          (dataframe_to_records tc (resample_data_polars
            (records_to_dataframe tc records) config.resample.interval)) by
      exact (hLperm.trans hmain).trans hRperm.symm
    -- the achieved keys of any tag group format injectively
    have hfmtGroup : ∀ p ∈ groupByKey (fun r => r.tag_name) records,
        ∀ k1 ∈ (p.2.filterMap fun r =>
            (tc.parse r.date_time).map fun ts =>
              windowKey ((config.resample.interval : Int) * 1000) ts),
          ∀ k2 ∈ (p.2.filterMap fun r =>
            (tc.parse r.date_time).map fun ts =>
              windowKey ((config.resample.interval : Int) * 1000) ts),
          tc.fmt k1 = tc.fmt k2 → k1 = k2 := by
      intro p hp k1 h1 k2 h2 hf
      have hsub : (p.2.filterMap fun r =>
          (tc.parse r.date_time).map fun ts =>
            windowKey ((config.resample.interval : Int) * 1000) ts) ⊆
          (records.filterMap fun r =>
            (tc.parse r.date_time).map fun ts =>
              windowKey ((config.resample.interval : Int) * 1000) ts) := by
        rw [mem_groupByKey_eq hp]
        exact ((List.filter_sublist _).filterMap _).subset
      exact hfmt k1 (hsub h1) k2 (hsub h2) hf
    -- the two forms of the achieved-key set coincide
    have hfmtD : ∀ k1 ∈ records.map (fun y =>
          windowKey ((config.resample.interval : Int) * 1000) ((tc.parse y.date_time).getD 0)),
        ∀ k2 ∈ records.map (fun y =>
          windowKey ((config.resample.interval : Int) * 1000) ((tc.parse y.date_time).getD 0)),
        tc.fmt k1 = tc.fmt k2 → k1 = k2 := by
      have hsub : ∀ k ∈ records.map (fun y =>
          windowKey ((config.resample.interval : Int) * 1000) ((tc.parse y.date_time).getD 0)),
          k ∈ records.filterMap fun r =>
            (tc.parse r.date_time).map fun ts =>
              windowKey ((config.resample.interval : Int) * 1000) ts := by
        intro k hk
        rcases List.mem_map.mp hk with ⟨y, hy, hky⟩
        rcases Option.isSome_iff_exists.mp (hparse1 y hy) with ⟨ts, hts⟩
        refine List.mem_filterMap.mpr ⟨y, hy, ?_⟩
        rw [hts, Option.map_some', Option.some.injEq]
        rw [hts] at hky
        simpa using hky
      intro k1 h1 k2 h2 hf
      exact hfmt k1 (hsub k1 h1) k2 (hsub k2 h2) hf
    -- window members of a tag group, as a joint filter over the input
    have hWconv : ∀ p ∈ groupByKey (fun r => r.tag_name) records, ∀ k : Int,
        windowMembers tc config.resample.interval p.2 k =
          records.filter fun y =>
            decide (windowKey ((config.resample.interval : Int) * 1000)
              ((tc.parse y.date_time).getD 0) = k) && decide (y.tag_name = p.1) := by
      intro p hp k
      rw [mem_groupByKey_eq hp, windowMembers, List.filter_filter]
      apply List.filter_congr
      intro y hy
      cases hpy : tc.parse y.date_time with
      | none =>
        have := hparse1 y hy
        rw [hpy] at this
        simp at this
      | some ts => simp [hpy]
    have hndL : ((groupByKey (fun r => r.tag_name) records).flatMap
        fun p => resample_data tc p.2 config.resample.interval).Nodup := by
      apply nodup_flatMap_of_disjoint
      · intro p hp
        exact nodup_resample_data tc config.resample.interval p.2 (hfmtGroup p hp)
      · have hnd := keys_nodup (fun r => r.tag_name) records
        rw [List.Nodup, List.pairwise_map] at hnd
        refine hnd.imp_of_mem ?_
        intro p q hp hq hpq x hx hx'
        rcases tag_of_mem_resample tc config.resample.interval p.2 x hx with ⟨w, hw, hxt⟩
        rcases tag_of_mem_resample tc config.resample.interval q.2 x hx' with ⟨w', hw', hxt'⟩
        have h1 : w.tag_name = p.1 := by
          rw [mem_groupByKey_eq hp] at hw
          exact of_decide_eq_true (List.mem_filter.mp hw).2
        have h2 : w'.tag_name = q.1 := by
          rw [mem_groupByKey_eq hq] at hw'
          exact of_decide_eq_true (List.mem_filter.mp hw').2
        exact hpq (by rw [← h1, ← hxt, hxt', h2])
    have hndR := nodup_polars_resample tc config.resample.interval records hfmtD
    refine (List.perm_ext_iff_of_nodup hndL hndR).mpr ?_
    intro a
    rw [List.mem_flatMap, mem_polars_resample_iff]
    constructor
    · rintro ⟨p, hp, ha⟩
      rcases (mem_resample_data_iff tc config.resample.interval p.2
        (mem_groupByKey_ne_nil hp) a).mp ha with ⟨k, w, ws, hW, hagg⟩
      have hwmem : w ∈ windowMembers tc config.resample.interval p.2 k := by
        rw [hW]; exact List.mem_cons_self _ _
      have htagw : w.tag_name = p.1 := by
        have hw2 := (List.mem_filter.mp hwmem).1
        rw [mem_groupByKey_eq hp] at hw2
        exact of_decide_eq_true (List.mem_filter.mp hw2).2
      refine ⟨k, p.1, w, ws, ?_, ?_⟩
      · rw [← hWconv p hp k, hW]
      · rw [hagg, htagw]
    · rintro ⟨k, t, w, ws, hfil, hagg⟩
      have hwmem : w ∈ records.filter (fun y =>
          decide (windowKey ((config.resample.interval : Int) * 1000)
            ((tc.parse y.date_time).getD 0) = k) && decide (y.tag_name = t)) := by
        rw [hfil]; exact List.mem_cons_self _ _
      have hw := List.mem_filter.mp hwmem
      have hpredw := hw.2
      rw [Bool.and_eq_true, decide_eq_true_eq, decide_eq_true_eq] at hpredw
      have hgrp := mem_groupByKey_of_achieved (f := fun r : HistoryRecord => r.tag_name) hw.1
      beta_reduce at hgrp
      rw [hpredw.2] at hgrp
      refine ⟨(t, records.filter fun y => decide (y.tag_name = t)), hgrp, ?_⟩
      have hne2 : (records.filter fun y => decide (y.tag_name = t)) ≠ [] :=
        mem_groupByKey_ne_nil hgrp
      apply (mem_resample_data_iff tc config.resample.interval _ hne2 a).mpr
      refine ⟨k, w, ws, ?_, ?_⟩
      · have := hWconv (t, records.filter fun y => decide (y.tag_name = t)) hgrp k
        rw [this, hfil]
      · rw [hagg, hpredw.2]

/-- Witness for C1 (amended): on a concrete two-tag input with parseable,
round-tripping timestamps and a resample-only configuration, the two
strategies produce permutations of each other. -/
theorem process_strategies_agree_witness :
    (process_data decCodec multiTagExample cfgResampleOnly).Perm
      (process_data_polars decCodec multiTagExample cfgResampleOnly) :=
  process_strategies_agree_without_outlier_smoothing decCodec multiTagExample cfgResampleOnly
    rfl (by with_unfolding_all decide) (by with_unfolding_all decide)
    (by with_unfolding_all decide)

end IndustryVis
